import Mathlib

/-!
# parallel-packed-csr: thread pool, driver, loader and PCSR

A shallow embedding of `src/thread_pool/thread_pool.cpp`, `src/main.cpp`,
`src/utils.h` and `src/pcsr/PCSR.h`, with the properties of the specification
proved about it.

Conventions of the embedding.

* `std::vector` and `std::queue` are lists; an access outside the bounds of a
  vector is undefined behaviour and makes the embedded function return `none`.
* Thread ids, thread counts, sizes and loop counters (C++ `int`) are natural
  numbers; where the source can take such a counter beyond `INT_MAX` (the
  `i += total_threads` of `executeBulk`) the signed overflow is undefined
  behaviour and the embedded function returns `none`. Edge end points keep
  their C++ type: an `int` is an `Int`, and the conversions `int -> uint32_t`
  and `uint32_t -> int` are explicit.
* The bodies of the member functions of `PCSR` (`PCSR.cpp`) are not part of the
  sources. In the thread pool the `PCSR` is represented by the sequence of
  calls it receives, each tagged with the id of the calling worker. The
  functions of `PCSR` that a property needs are modelled from the
  specification; their doc comments say so.
* Loops that may spin (`execute`) or fail to advance (`executeBulk` with a zero
  stride) take a fuel argument and return `none` when it runs out.
* The flag `finished` is a plain `bool` that `stop` writes while the workers
  read it, without synchronisation. Whether the reads of a worker ever return
  the value written by `stop` is not fixed by the program; it is a parameter of
  `stop` (`sees`).
-/

namespace PPCSR

/-! ## Machine integers -/

/-- Conversion `int -> uint32_t` (reduction modulo `2^32`). -/
def toU32 (x : Int) : Nat := (x % 4294967296).toNat

/-- Conversion `uint32_t -> int` (two's complement reinterpretation). -/
def toI32 (n : Nat) : Int :=
  if n % 4294967296 < 2147483648 then ((n % 4294967296 : Nat) : Int)
  else ((n % 4294967296 : Nat) : Int) - 4294967296

/-! ## Thread pool (`thread_pool.h`, `thread_pool.cpp`) -/

/-- The `task` struct of `thread_pool.h`. -/
structure task where
  add : Bool
  read : Bool
  src : Int
  target : Int
  deriving DecidableEq, Repr

/-- A call of the public API of `PCSR` made by a worker. The parameters of
`add_edge` and `remove_edge` are `uint32_t`, the one of `read_neighbourhood`
is `int`. -/
inductive Call where
  | add_edge (src dest value : Nat)
  | remove_edge (src dest : Nat)
  | read_neighbourhood (src : Int)
  deriving DecidableEq, Repr

/-- The state of a `ThreadPool` object. `pcsr` is the sequence of calls the
`PCSR` has received, each with the id of the worker that made it;
`thread_pool` lists the launched workers by the arguments of their `execute`;
`bulkUpdate` is `none` for the null pointer. -/
structure ThreadPool where
  pcsr : List (Nat × Call)
  thread_pool : List (Nat × Nat)
  tasks : List (List task)
  bulkUpdate : Option (List (Int × Int))
  finished : Bool
  deriving DecidableEq, Repr

/-- The constructor `ThreadPool::ThreadPool`: `tasks.resize(NUM_OF_THREADS)` and
a fresh `PCSR`. The member `bulkUpdate` has no initializer; its initial value
is the parameter `bulk0`. -/
def ThreadPool.new (NUM_OF_THREADS : Nat) (bulk0 : Option (List (Int × Int))) : ThreadPool :=
  { pcsr := [], thread_pool := [], tasks := List.replicate NUM_OF_THREADS [],
    bulkUpdate := bulk0, finished := false }

/-- The loop of `ThreadPool::executeBulk`, from index `i` on:
`for (int i = thread_id; i < bulkUpdate->size(); i += total_threads)` with the
body `pcsr->add_edge((*bulkUpdate)[i].first, (*bulkUpdate)[i].second, 1)`. The
counter is an `int`: when `i += total_threads` exceeds `INT_MAX` the behaviour
is undefined. -/
def executeBulkLoop (bulkUpdate : List (Int × Int)) (thread_id total_threads : Nat) :
    Nat → Nat → ThreadPool → Option ThreadPool
  | 0, _, _ => none
  | fuel + 1, i, p =>
    if i < bulkUpdate.length then
      match bulkUpdate[i]? with
      | none => none
      | some e =>
        if 2147483647 < i + total_threads then none
        else
          executeBulkLoop bulkUpdate thread_id total_threads fuel (i + total_threads)
            { p with pcsr := p.pcsr ++ [(thread_id, Call.add_edge (toU32 e.1) (toU32 e.2) 1)] }
    else some p

/-- `ThreadPool::executeBulk`. Dereferencing a null `bulkUpdate` is undefined. -/
def executeBulk (fuel : Nat) (p : ThreadPool) (thread_id total_threads : Nat) : Option ThreadPool :=
  match p.bulkUpdate with
  | none => none
  | some b => executeBulkLoop b thread_id total_threads fuel thread_id p

/-- The core call made for a dequeued task in `ThreadPool::execute`. -/
def taskCall (t : task) : Call :=
  if t.add then Call.add_edge (toU32 t.src) (toU32 t.target) 1
  else if !t.read then Call.remove_edge (toU32 t.src) (toU32 t.target)
  else Call.read_neighbourhood t.src

/-- The `while (!finished || !tasks[thread_id].empty())` loop of
`ThreadPool::execute`. -/
def executeLoop (thread_id : Nat) : Nat → ThreadPool → Option ThreadPool
  | 0, _ => none
  | fuel + 1, p =>
    match p.tasks[thread_id]? with
    | none => none
    | some q =>
      if !p.finished || !q.isEmpty then
        match q with
        | [] => executeLoop thread_id fuel p
        | t :: rest =>
          executeLoop thread_id fuel
            { p with tasks := p.tasks.set thread_id rest,
                     pcsr := p.pcsr ++ [(thread_id, taskCall t)] }
      else some p

/-- `ThreadPool::execute`, the function run by a worker. -/
def execute (fuel : Nat) (p : ThreadPool) (thread_id threads : Nat) : Option ThreadPool :=
  match (if p.bulkUpdate != none then executeBulk fuel p thread_id threads else some p) with
  | none => none
  | some p1 => executeLoop thread_id fuel p1

/-- `ThreadPool::submit_add`. -/
def submit_add (p : ThreadPool) (thread_id : Nat) (src target : Int) : Option ThreadPool :=
  match p.tasks[thread_id]? with
  | none => none
  | some q => some { p with tasks := p.tasks.set thread_id (q ++ [⟨true, false, src, target⟩]) }

/-- `ThreadPool::submit_delete`. -/
def submit_delete (p : ThreadPool) (thread_id : Nat) (src target : Int) : Option ThreadPool :=
  match p.tasks[thread_id]? with
  | none => none
  | some q => some { p with tasks := p.tasks.set thread_id (q ++ [⟨false, false, src, target⟩]) }

/-- `ThreadPool::submit_read`. -/
def submit_read (p : ThreadPool) (thread_id : Nat) (src : Int) : Option ThreadPool :=
  match p.tasks[thread_id]? with
  | none => none
  | some q => some { p with tasks := p.tasks.set thread_id (q ++ [⟨false, true, src, src⟩]) }

/-- `ThreadPool::submit_bulk`. -/
def submit_bulk (p : ThreadPool) (edges : List (Int × Int)) : ThreadPool :=
  { p with bulkUpdate := some edges }

/-- `ThreadPool::start`: clears `finished` and launches `threads` workers, worker
`i` running `execute(i, threads)`. -/
def start (p : ThreadPool) (threads : Nat) : ThreadPool :=
  { p with finished := false,
           thread_pool := p.thread_pool ++ (List.range threads).map (fun i => (i, threads)) }

/-- The joins of `ThreadPool::stop`. The workers run from `start` on and read
the plain `bool finished` while `stop` writes it; `sees i` tells whether the
reads of worker `i` eventually return `true`. A worker whose reads return
`false` for a while and `true` afterwards makes the same calls as one that
reads `true` at once (an iteration on an empty queue makes no call), so worker
`i` is run on the flag `sees i`: with `sees i = false` its loop never ends and
the join does not return. A worker only reads `bulkUpdate` and only touches
its own queue, so the calls it makes do not depend on how the workers
interleave; they are run one after the other, in the order of the joins. -/
def joinAll (fuel : Nat) (sees : Nat → Bool) : List (Nat × Nat) → ThreadPool → Option ThreadPool
  | [], p => some p
  | (i, n) :: ws, p =>
    match execute fuel { p with finished := sees i } i n with
    | none => none
    | some p1 => joinAll fuel sees ws { p1 with finished := p.finished }

/-- `ThreadPool::stop`: sets `finished`, joins the workers, resets `bulkUpdate`
and clears the list of workers. -/
def stop (fuel : Nat) (sees : Nat → Bool) (p : ThreadPool) : Option ThreadPool :=
  match joinAll fuel sees p.thread_pool { p with finished := true } with
  | none => none
  | some p1 => some { p1 with bulkUpdate := none, thread_pool := [] }

/-! ## Driver (`main.cpp`) -/

/-- `insert_with_thread_pool`: builds the pool and loads the core graph. -/
def insert_with_thread_pool (fuel : Nat) (sees : Nat → Bool) (input : List (Int × Int))
    (threads : Nat) (bulk0 : Option (List (Int × Int))) : Option ThreadPool :=
  stop fuel sees (start (submit_bulk (ThreadPool.new threads bulk0) input) threads)

/-- The submission loop of `update_existing_graph`:
`for (int i = 0; i < size; i++) submit_add(i % threads, input[i].first, input[i].second)`.
A remainder by zero is undefined. -/
def update_existing_graph_loop (input : List (Int × Int)) (p : ThreadPool) (threads size : Nat) :
    Option ThreadPool :=
  (List.range size).foldlM (fun (q : ThreadPool) (i : Nat) =>
    match input[i]? with
    | none => none
    | some e => if threads = 0 then none else submit_add q (i % threads) e.1 e.2) p

/-- `update_existing_graph`. -/
def update_existing_graph (fuel : Nat) (sees : Nat → Bool) (input : List (Int × Int))
    (p : ThreadPool) (threads size : Nat) : Option ThreadPool :=
  match update_existing_graph_loop input p threads size with
  | none => none
  | some p1 => stop fuel sees (start p1 threads)

/-- The submission loop of `thread_pool_deletions`. -/
def thread_pool_deletions_loop (p : ThreadPool) (deletions : List (Int × Int)) (threads size : Nat) :
    Option ThreadPool :=
  (List.range size).foldlM (fun (q : ThreadPool) (i : Nat) =>
    match deletions[i]? with
    | none => none
    | some e => if threads = 0 then none else submit_delete q (i % threads) e.1 e.2) p

/-- `thread_pool_deletions`. -/
def thread_pool_deletions (fuel : Nat) (sees : Nat → Bool) (p : ThreadPool)
    (deletions : List (Int × Int)) (threads size : Nat) : Option ThreadPool :=
  match thread_pool_deletions_loop p deletions threads size with
  | none => none
  | some p1 => stop fuel sees (start p1 threads)

/-! ## Reference notions used in the statements -/

/-- Indices of a sequence of length `M` that worker `t` of `T` owns: the
`i < M` with `i % T = t`, in ascending order. -/
def shareIdx (M T t : Nat) : List (Fin M) :=
  (List.finRange M).filter (fun i => i.val % T = t)

/-- Round-robin share of worker `t` of `T`: the entries `E[i]` with
`i % T = t`, in ascending order of `i`. -/
def share {α : Type} (E : List α) (T t : Nat) : List α :=
  (shareIdx E.length T t).map (fun i => E.get i)

/-- The call `add_edge(e.first, e.second, 1)` that the properties name for an
entry `e` of the bulk sequence (the arguments of `add_edge` are `uint32_t`). -/
def bulkCall (e : Int × Int) : Call := Call.add_edge (toU32 e.1) (toU32 e.2) 1

/-- The calls `add_edge(E[i].first, E[i].second, 1)` for the indices worker `t`
owns, in ascending order of `i`. -/
def bulkShare (E : List (Int × Int)) (T t : Nat) : List Call :=
  (share E T t).map bulkCall

/-- A submission to the queue of one worker through the public API. -/
inductive Submission where
  | add (src target : Int)
  | delete (src target : Int)
  | read (src : Int)
  deriving DecidableEq, Repr

/-- Performs a submission with `submit_add`, `submit_delete` or `submit_read`. -/
def Submission.submit (p : ThreadPool) (thread_id : Nat) : Submission → Option ThreadPool
  | Submission.add src target => submit_add p thread_id src target
  | Submission.delete src target => submit_delete p thread_id src target
  | Submission.read src => submit_read p thread_id src

/-- The core call a submission stands for: `add_edge(src, target, 1)`,
`remove_edge(src, target)` or `read_neighbourhood(src)`. -/
def Submission.call : Submission → Call
  | Submission.add src target => Call.add_edge (toU32 src) (toU32 target) 1
  | Submission.delete src target => Call.remove_edge (toU32 src) (toU32 target)
  | Submission.read src => Call.read_neighbourhood src

/-- Submits a sequence to the queue of worker `thread_id`, in order. -/
def submitAll (p : ThreadPool) (thread_id : Nat) (subs : List Submission) : Option ThreadPool :=
  subs.foldlM (fun q s => s.submit q thread_id) p

/-- Performs a sequence of submissions, each to the queue of the thread it
names, in order. -/
def submitEach (p : ThreadPool) (subs : List (Nat × Submission)) : Option ThreadPool :=
  subs.foldlM (fun q s => s.2.submit q s.1) p

/-- The computation `f`, given by its result for each amount of fuel, yields no
result whatever the fuel: it does not return, or its behaviour is undefined. -/
def no_result (f : Nat → Option ThreadPool) : Prop := ∀ fuel, f fuel = none

/-- The calls `executeBulk` makes for worker `t` at the start of `execute`:
none when no bulk sequence is installed. -/
def bulkPrefix (p : ThreadPool) (T t : Nat) : List Call :=
  match p.bulkUpdate with
  | none => []
  | some E => bulkShare E T t

/-- Length of the installed bulk sequence (0 when none is installed). -/
def bulkLen (p : ThreadPool) : Nat :=
  match p.bulkUpdate with
  | none => 0
  | some E => E.length

/-- The calls of worker `t` in a sequence of tagged calls. -/
def callsOf (t : Nat) (log : List (Nat × Call)) : List Call :=
  (log.filter (fun c => c.1 = t)).map (fun c => c.2)

/-- Indices `j < M` in the class of `t` modulo `T` that are at least `i`. -/
def strideFrom (M T t i : Nat) : List Nat :=
  (List.range M).filter (fun j => decide (j % T = t) && decide (i ≤ j))

/-- Tasks built from the entries `i < n` of `input` with `i % T = q`. -/
def enq (input : List (Int × Int)) (mk : Int × Int → task) (T n q : Nat) : List task :=
  ((List.range n).filter (fun i => decide (i % T = q))).filterMap (fun i => (input[i]?).map mk)

/-- The calls worker `t` makes in one run of `execute`: its bulk share, if a
bulk sequence is installed, then one call per task of its queue. -/
def workerCalls (p : ThreadPool) (T t : Nat) : List Call :=
  bulkPrefix p T t ++ (p.tasks.getD t []).map taskCall

/-! ## Loader (`main.cpp`, `utils.h`)

Files are byte sequences; a `std::string` read from a file is a list of bytes.
A file system maps a path to the content of the file, or to `none` when the
file cannot be opened. An uncaught exception or a failed `assert` ends the
program; the loader then returns an error. -/

/-- Content of the file at a path, `none` when it cannot be opened. -/
abbrev FileSystem := String → Option (List UInt8)

/-- Ways the loader ends the program. -/
inductive LoadError where
  | assertion_failed
  | invalid_argument
  | out_of_range
  deriving DecidableEq, Repr

deriving instance DecidableEq for Except

/-- Byte order of the machine (`BinaryEdge` is read with `fread` as it lies in
the file). -/
inductive Endian where
  | little
  | big
  deriving DecidableEq, Repr

/-- `endsWith` of `utils.h`:
`fullString.compare(fullString.length() - ending.length(), ending.length(), ending) == 0`
when `fullString` is at least as long as `ending`. -/
def endsWith (fullString ending : String) : Bool :=
  if fullString.length ≥ ending.length then
    ((fullString.data.drop (fullString.length - ending.length)).take ending.length) == ending.data
  else false

/-- The `uint32_t` held in four consecutive bytes. -/
def decodeU32 (en : Endian) (b0 b1 b2 b3 : UInt8) : Nat :=
  match en with
  | Endian.little => b0.toNat + 256 * b1.toNat + 65536 * b2.toNat + 16777216 * b3.toNat
  | Endian.big => b3.toNat + 256 * b2.toNat + 65536 * b1.toNat + 16777216 * b0.toNat

/-- The loop `while (fread(&edge, sizeof(edge), 1, file) > 0)` of `read_binary`:
every complete record of 8 bytes gives `make_pair(edge.src, edge.dst)`,
converted to `pair<int, int>`; an incomplete record ends the loop. -/
def read_binary_loop (en : Endian) : List UInt8 → List (Int × Int)
  | b0 :: b1 :: b2 :: b3 :: b4 :: b5 :: b6 :: b7 :: rest =>
    (toI32 (decodeU32 en b0 b1 b2 b3), toI32 (decodeU32 en b4 b5 b6 b7)) ::
      read_binary_loop en rest
  | _ => []

/-- `read_binary`. The `assert(file)` fails when the file cannot be opened. -/
def read_binary (en : Endian) (fs : FileSystem) (filename : String) :
    Except LoadError (List (Int × Int)) :=
  match fs filename with
  | none => Except.error LoadError.assertion_failed
  | some bytes => Except.ok (read_binary_loop en bytes)

/-- `std::string::npos`, the largest `size_t`. -/
def npos : Nat := 18446744073709551615

/-- `line.find(c)`: index of the first occurrence of `c`, `npos` if there is none. -/
def find (line : List UInt8) (c : UInt8) : Nat :=
  match line with
  | [] => npos
  | b :: rest => if b = c then 0 else
    (if find rest c = npos then npos else find rest c + 1)

/-- `line.substr(pos, len)`; throws `out_of_range` when `pos` exceeds the size. -/
def substr (line : List UInt8) (pos len : Nat) : Except LoadError (List UInt8) :=
  if pos > line.length then Except.error LoadError.out_of_range
  else Except.ok ((line.drop pos).take len)

/-- `isspace` in the "C" locale. -/
def isspace (b : UInt8) : Bool :=
  b = 32 || b = 9 || b = 10 || b = 11 || b = 12 || b = 13

/-- `isdigit`. -/
def isdigit (b : UInt8) : Bool := 48 ≤ b.toNat && b.toNat ≤ 57

/-- Value of a run of decimal digits. -/
def digitsValue (ds : List UInt8) : Nat :=
  ds.foldl (fun acc b => acc * 10 + (b.toNat - 48)) 0

/-- The digits of `std::stoi` after white space and sign: `invalid_argument`
when there is no digit, `out_of_range` when the value does not fit an `int`. -/
def stoiDigits (neg : Bool) (s : List UInt8) : Except LoadError Int :=
  let ds := s.takeWhile isdigit
  if ds.isEmpty then Except.error LoadError.invalid_argument
  else
    let v : Int := if neg then - (digitsValue ds : Int) else (digitsValue ds : Int)
    if v < -2147483648 ∨ 2147483647 < v then Except.error LoadError.out_of_range
    else Except.ok v

/-- `std::stoi(s)` in base 10: skips leading white space, reads an optional
sign and the longest run of digits, ignores what follows. -/
def stoi (s : List UInt8) : Except LoadError Int :=
  match s.dropWhile isspace with
  | [] => Except.error LoadError.invalid_argument
  | b :: rest =>
    if b = 45 then stoiDigits true rest
    else if b = 43 then stoiDigits false rest
    else stoiDigits false (b :: rest)

/-- The lines `getline` extracts from a stream, from the characters `acc`
(reversed) already read of the current line. The last line needs no newline; an
empty remainder at the end of the file is not a line. -/
def getlinesFrom (acc : List UInt8) : List UInt8 → List (List UInt8)
  | [] => if acc.isEmpty then [] else [acc.reverse]
  | b :: rest => if b = 10 then acc.reverse :: getlinesFrom [] rest else getlinesFrom (b :: acc) rest

/-- The successive results of `getline(f, line)` on a stream. -/
def getlines (content : List UInt8) : List (List UInt8) := getlinesFrom [] content

/-- The two statements that read an edge from a line, in `read_input` with the
separator `' '` and in `read_input2` with `','`:
`int src = stoi(line.substr(0, line.find(sep)));`
`int target = stoi(line.substr(line.find(sep) + 1, line.size()));`
(the sum is a `size_t`). -/
def parseEdge (sep : UInt8) (line : List UInt8) : Except LoadError (Int × Int) :=
  match substr line 0 (find line sep) with
  | Except.error e => Except.error e
  | Except.ok s1 =>
    match stoi s1 with
    | Except.error e => Except.error e
    | Except.ok src =>
      match substr line ((find line sep + 1) % 18446744073709551616) line.length with
      | Except.error e => Except.error e
      | Except.ok s2 =>
        match stoi s2 with
        | Except.error e => Except.error e
        | Except.ok target => Except.ok (src, target)

/-- The loop of `read_input`, `edges` being the vector built so far. -/
def read_input_loop (edges : List (Int × Int)) :
    List (List UInt8) → Except LoadError (List (Int × Int))
  | [] => Except.ok edges
  | line :: rest =>
    match parseEdge 32 line with
    | Except.error e => Except.error e
    | Except.ok edge => read_input_loop (edges ++ [edge]) rest

/-- `read_input`: reads an edge list with space separator. A stream that failed
to open yields no line. -/
def read_input (fs : FileSystem) (filename : String) : Except LoadError (List (Int × Int)) :=
  match fs filename with
  | none => Except.ok []
  | some content => read_input_loop [] (getlines content)

/-- The loop of `read_input2`, `edges` being the vector built so far. A line
without a comma makes the function return `read_input(filename)`. -/
def read_input2_loop (fs : FileSystem) (filename : String) (edges : List (Int × Int)) :
    List (List UInt8) → Except LoadError (List (Int × Int))
  | [] => Except.ok edges
  | line :: rest =>
    if find line 44 = npos then read_input fs filename
    else
      match parseEdge 44 line with
      | Except.error e => Except.error e
      | Except.ok edge => read_input2_loop fs filename (edges ++ [edge]) rest

/-- `read_input2`: a file named `*.elog` is read by `read_binary`, another one
as text. -/
def read_input2 (en : Endian) (fs : FileSystem) (filename : String) :
    Except LoadError (List (Int × Int)) :=
  if endsWith filename ".elog" then read_binary en fs filename
  else
    match fs filename with
    | none => Except.ok []
    | some content => read_input2_loop fs filename [] (getlines content)

/-! ### Reference notions for the loader -/

/-- Parses every line as `<src><sep><dst>`, appending the edges to `edges`. -/
def parseLines (sep : UInt8) (edges : List (Int × Int)) :
    List (List UInt8) → Except LoadError (List (Int × Int))
  | [] => Except.ok edges
  | line :: rest =>
    match parseEdge sep line with
    | Except.error e => Except.error e
    | Except.ok edge => parseLines sep (edges ++ [edge]) rest

/-- Decimal representation of a natural number, without leading zeros. -/
def decimal (n : Nat) : List UInt8 :=
  if n = 0 then [48] else (Nat.digits 10 n).reverse.map (fun d => UInt8.ofNat (48 + d))

/-- The line `"<src>c<dst>\n"`. -/
def textLine (c : UInt8) (e : Nat × Nat) : List UInt8 :=
  decimal e.1 ++ c :: (decimal e.2 ++ [10])

/-- The text file with one line `"<src>c<dst>\n"` per edge. -/
def textFile (c : UInt8) (edges : List (Nat × Nat)) : List UInt8 :=
  edges.flatMap (textLine c)

/-- The `uint32_t` at offset `i` of a byte sequence. -/
def u32At (en : Endian) (bytes : List UInt8) (i : Nat) : Nat :=
  decodeU32 en (bytes.getD i 0) (bytes.getD (i + 1) 0) (bytes.getD (i + 2) 0) (bytes.getD (i + 3) 0)

/-! ## PCSR (`PCSR.h`)

`PCSR.h` declares the types and the member functions; the bodies
(`PCSR.cpp`) are not among the sources. The types below are those of the
header; the functions are modelled from the specification, sequentially (locks
and version counters do not appear). -/

/-- `UINT32_MAX`, the mark of a sentinel (`dest`) and of a deleted vertex
(`beginning`). -/
def MAX : Nat := 4294967295

/-- `edge_t` of `PCSR.h`. -/
structure edge_t where
  src : Nat
  dest : Nat
  value : Nat
  deriving DecidableEq, Repr

/-- `node_t` of `PCSR.h` (`end_` is the field `end`). -/
structure node_t where
  beginning : Nat
  end_ : Nat
  num_neighbors : Nat
  deriving DecidableEq, Repr

/-- `edge_list_t` of `PCSR.h`, without the lock and the version counters. -/
structure edge_list_t where
  N : Nat
  H : Nat
  logN : Nat
  items : List edge_t
  deriving DecidableEq, Repr

/-- `insertion_info_t` of `PCSR.h`. -/
structure insertion_info_t where
  slide_right : Bool
  first_empty : Nat
  max_len : Nat
  node_index_final : Nat
  double_list : Bool
  deriving DecidableEq, Repr

/-- The data members of `PCSR`: the edge list and the vertex descriptors. -/
structure PCSR where
  edges : edge_list_t
  nodes : List node_t
  deriving DecidableEq, Repr

/-- The macro `is_null(val)` of `PCSR.h`: `val == 0`. -/
def is_null (val : Nat) : Bool := val == 0

/-- Modelled from the spec: the quantities that the specification leaves to
the implementation, which `PCSR.cpp` would fix: the leaf size for a capacity
(`logN`, "rounded to the implementation's leaf size") and the upper density
bound of a level, given as the test `upper H level count len` that `count`
non-null slots in a window of `len` slots at `level` of a tree of height `H`
stay within the bound. -/
structure Density where
  leaf_size : Nat → Nat
  upper : Nat → Nat → Nat → Nat → Bool

/-- Modelled from the spec: a slot is a sentinel when it is not null and its
`dest` is `MAX` (section 3, "Edge slot"). -/
def is_sentinel (e : edge_t) : Bool := !is_null e.value && e.dest == MAX

/-- Modelled from the spec: the sentinel of vertex `v` carries `v` in `src`. -/
def is_sentinel_of (v : Nat) (e : edge_t) : Bool := is_sentinel e && e.src == v

/-- Modelled from the spec: a real edge is a slot that is neither null nor a
sentinel. -/
def is_edge (e : edge_t) : Bool := !is_null e.value && e.dest != MAX

/-- The null slot. -/
def null_edge : edge_t := ⟨0, 0, 0⟩

/-- Modelled from the spec: `begin` of vertex `v` for a packed array, the index
of the sentinel of `v`, or `MAX` when there is none (section 3, "Vertex
descriptor"). -/
def sentinel_index (items : List edge_t) (v : Nat) : Nat :=
  if items.findIdx (is_sentinel_of v) < items.length then items.findIdx (is_sentinel_of v) else MAX

/-- Modelled from the spec: `end` of vertex `v` for a packed array, the
exclusive end of its run: the index of the next sentinel after its own, or the
length of the array. -/
def run_end (items : List edge_t) (v : Nat) : Nat :=
  sentinel_index items v + 1 + (items.drop (sentinel_index items v + 1)).findIdx is_sentinel

/-- Modelled from the spec: the sentinel fixup (`fix_sentinel`, sections 4.1 and
4.6): after slots have moved, `begin` and `end` of every descriptor are set to
the place of its sentinel and the end of its run. -/
def fix_sentinels (items : List edge_t) (nodes : List node_t) : List node_t :=
  nodes.mapIdx (fun v n => { n with beginning := sentinel_index items v, end_ := run_end items v })

/-- Modelled from the spec: index consistency of `begin` and `end` (section 3,
"Global invariants"): every descriptor points to its sentinel and to the end of
its run. -/
def index_consistent (S : PCSR) : Prop := fix_sentinels S.edges.items S.nodes = S.nodes

instance (S : PCSR) : Decidable (index_consistent S) := by
  unfold index_consistent
  exact inferInstance

/-- Modelled from the spec: `find_insertion_index` (section 4.3, step 3), for the
descriptor `D` of the source: the smallest index of the run `(D.begin, D.end)`
holding a non-null slot with `dest >= dst`, nulls being skipped; `D.end` when
there is none. -/
def find_insertion_index (items : List edge_t) (D : node_t) (dst : Nat) : Nat :=
  D.beginning + 1 +
    (((items.drop (D.beginning + 1)).take (D.end_ - (D.beginning + 1))).findIdx
      (fun e => !is_null e.value && decide (dst ≤ e.dest)))

/-- Modelled from the spec: `count_elems(index, len)`, the number of non-null
slots of a window. -/
def count_elems (items : List edge_t) (index len : Nat) : Nat :=
  (((items.drop index).take len).filter (fun e => !is_null e.value)).length

/-- Modelled from the spec: `slide_right` (section 4.1) from `index` to the null
slot `first_empty >= index`: the slots in between move one place to the right
and the slot at `index` becomes free. -/
def slide_right (items : List edge_t) (index first_empty : Nat) : List edge_t :=
  items.take index ++ null_edge :: (items.drop index).eraseIdx (first_empty - index)

/-- Modelled from the spec: `slide_left` (section 4.1) towards the null slot
`first_empty < index`: the slots between `first_empty` and `index` move one
place to the left and the slot at `index - 1` becomes free. -/
def slide_left (items : List edge_t) (index first_empty : Nat) : List edge_t :=
  (items.take index).eraseIdx first_empty ++ null_edge :: items.drop index

/-- Modelled from the spec: the even spacing of section 4.6, steps 2 and 3:
slot `k` of `c` goes to position `floor(k * len / c)`, nulls fill the rest. -/
def spread_from (len c : Nat) : Nat → List edge_t → List edge_t
  | _, [] => []
  | k, x :: xs =>
    x :: (List.replicate ((k + 1) * len / c - k * len / c - 1) null_edge ++
      spread_from len c (k + 1) xs)

/-- Modelled from the spec: the slots `xs` evenly spaced over `len` places. -/
def spread (xs : List edge_t) (len : Nat) : List edge_t :=
  if xs.isEmpty then List.replicate len null_edge else spread_from len xs.length 0 xs

/-- Modelled from the spec: `redistribute(index, len)` (section 4.6) on the
packed array: the non-null slots of the window are collected in order and
written back evenly spaced. -/
def redistribute (items : List edge_t) (index len : Nat) : List edge_t :=
  items.take index ++
    spread (((items.drop index).take len).filter (fun e => !is_null e.value)) len ++
    items.drop (index + len)

/-- Modelled from the spec: `double_list` (section 4.1, "Doubling"): a new array
of size `2N` receives the packed contents evenly spaced; `logN` and `H` are
recomputed. -/
def double_list (dp : Density) (edges : edge_list_t) : edge_list_t :=
  { N := 2 * edges.N,
    logN := dp.leaf_size (2 * edges.N),
    H := Nat.log2 (2 * edges.N / dp.leaf_size (2 * edges.N)),
    items := spread (edges.items.filter (fun e => !is_null e.value)) (2 * edges.N) }

/-- Modelled from the spec: the search of section 4.4, step 2d, for the smallest
window of the implicit tree around `index`, from `level` upwards, whose density
stays within the bound of its level; `none` when there is none up to the
root. The result is the start and the length of the window. -/
def find_window (dp : Density) (items : List edge_t) (logN H index : Nat) :
    Nat → Nat → Option (Nat × Nat)
  | 0, _ => none
  | fuel + 1, level =>
    if dp.upper H level (count_elems items (index / (logN * 2 ^ level) * (logN * 2 ^ level))
        (logN * 2 ^ level)) (logN * 2 ^ level) then
      some (index / (logN * 2 ^ level) * (logN * 2 ^ level), logN * 2 ^ level)
    else find_window dp items logN H index fuel (level + 1)

/-- Modelled from the spec: the test that slot `j` of the array is null
(section 3, "Edge slot"). -/
def null_at (items : List edge_t) (j : Nat) : Bool :=
  match items[j]? with
  | some e => is_null e.value
  | none => false

/-- Modelled from the spec: the slide part of the plan (section 4.4, step 2c):
the scan goes right from `index` for the first null; it goes left, for the
nearest null, when the leaf of `index` is packed from `index` to its end and
there is a null on the left. The result is the direction (`true` for right)
and `first_empty`; without any null the slide goes right, past the end of the
array. -/
def scan_null (edges : edge_list_t) (index : Nat) : Bool × Nat :=
  match ((List.range edges.items.length).filter (fun j => index ≤ j)).find?
      (null_at edges.items) with
  | some k =>
    if k < (index / edges.logN + 1) * edges.logN then (true, k)
    else
      match ((List.range edges.items.length).filter (fun j => j < index)).reverse.find?
          (null_at edges.items) with
      | some j => (false, j)
      | none => (true, k)
  | none =>
    match ((List.range edges.items.length).filter (fun j => j < index)).reverse.find?
        (null_at edges.items) with
    | some j => (false, j)
    | none => (true, edges.items.length)

/-- Modelled from the spec: the slide and the write of section 4.4, step 3: the
array with `elem` at the insertion point. -/
def slide_insert (items : List edge_t) (index : Nat) (elem : edge_t) (right : Bool)
    (first_empty : Nat) : List edge_t :=
  if right then (slide_right items index first_empty).set index elem
  else (slide_left items index first_empty).set (index - 1) elem

/-- Modelled from the spec: the plan of `acquire_insert_locks` (section 4.4,
steps 2c to 2f), without the locks: the direction of the slide, the first empty
slot, and the window to redistribute, or `double_list` when the array has no
null or no window up to the root stays within its density bound after the
insertion. -/
def acquire_insert_locks (dp : Density) (edges : edge_list_t) (index : Nat) (elem : edge_t) :
    insertion_info_t :=
  if edges.items.length ≤ (scan_null edges index).2 then
    ⟨(scan_null edges index).1, (scan_null edges index).2, edges.N, 0, true⟩
  else
    match find_window dp
        (slide_insert edges.items index elem (scan_null edges index).1 (scan_null edges index).2)
        edges.logN edges.H (if (scan_null edges index).1 then index else index - 1)
        (edges.H + 1) 0 with
    | none => ⟨(scan_null edges index).1, (scan_null edges index).2, edges.N, 0, true⟩
    | some (start, len) =>
      ⟨(scan_null edges index).1, (scan_null edges index).2, len, start, false⟩

/-- Modelled from the spec: `insert(index, elem, src, info)` (section 4.4, steps 3
and 4): slide, write the slot, then repack into the doubled list or
redistribute the window when it is larger than a leaf; the sentinels are fixed
and the degree of `src` is incremented. -/
def insert (dp : Density) (S : PCSR) (index : Nat) (elem : edge_t) (src : Nat)
    (info : insertion_info_t) : PCSR :=
  { edges :=
      if info.double_list then
        double_list dp { S.edges with
          items := slide_insert S.edges.items index elem info.slide_right info.first_empty }
      else if info.max_len > S.edges.logN then
        { S.edges with
          items := redistribute
            (slide_insert S.edges.items index elem info.slide_right info.first_empty)
            info.node_index_final info.max_len }
      else { S.edges with
        items := slide_insert S.edges.items index elem info.slide_right info.first_empty },
    nodes := fix_sentinels
      (if info.double_list then
        (double_list dp { S.edges with
          items := slide_insert S.edges.items index elem info.slide_right info.first_empty }).items
      else if info.max_len > S.edges.logN then
        redistribute (slide_insert S.edges.items index elem info.slide_right info.first_empty)
          info.node_index_final info.max_len
      else slide_insert S.edges.items index elem info.slide_right info.first_empty)
      (S.nodes.modify (fun n => { n with num_neighbors := n.num_neighbors + 1 }) src) }

/-- Modelled from the spec: `add_edge(src, dest, value)` (section 4.4): the
insertion index is located; when the located slot already holds `(src, dest)`
as a real edge the call is a no-op; otherwise the slot is inserted. A source
beyond the declared vertices is refused (`none`); a deleted source is not
found and nothing is done. -/
def add_edge (dp : Density) (S : PCSR) (src dest value : Nat) : Option PCSR :=
  match S.nodes[src]? with
  | none => none
  | some D =>
    if D.beginning = MAX then some S
    else
      match S.edges.items[find_insertion_index S.edges.items D dest]? with
      | some e =>
        if is_edge e && e.src == src && e.dest == dest then some S
        else some (insert dp S (find_insertion_index S.edges.items D dest) ⟨src, dest, value⟩ src
          (acquire_insert_locks dp S.edges (find_insertion_index S.edges.items D dest)
            ⟨src, dest, value⟩))
      | none =>
        some (insert dp S (find_insertion_index S.edges.items D dest) ⟨src, dest, value⟩ src
          (acquire_insert_locks dp S.edges (find_insertion_index S.edges.items D dest)
            ⟨src, dest, value⟩))

/-- An instance of the open parameters: a fixed leaf size and an upper density
bound that goes linearly from 1 at the leaves to 1/2 at the root. -/
def linear_density (leaf : Nat) : Density :=
  { leaf_size := fun _ => leaf,
    upper := fun H level count len => decide (count * (2 * H) ≤ len * (2 * H - level)) }

/-- A state with the two vertices 0 and 1 and no edge, in an array of four
slots with leaves of two slots. -/
def two_vertices : PCSR :=
  { edges := { N := 4, H := 1, logN := 2,
               items := [⟨0, MAX, MAX⟩, null_edge, null_edge, ⟨1, MAX, 1⟩] },
    nodes := [⟨0, 3, 0⟩, ⟨3, 4, 0⟩] }

/-- The non-null slots of an array, in order. -/
def content (items : List edge_t) : List edge_t := items.filter (fun e => !is_null e.value)

/-- The test of `find_insertion_index`: a non-null slot with `dest >= dst`. -/
def reaches (dst : Nat) (e : edge_t) : Bool := !is_null e.value && decide (dst ≤ e.dest)

/-- The slot located for `(v, dst)` in an array: the first slot after the
sentinel of `v` that passes the test of `find_insertion_index`. -/
def located (items : List edge_t) (v dst : Nat) : Option edge_t :=
  (items.drop (items.findIdx (is_sentinel_of v) + 1)).find? (reaches dst)

/-! # Theorems -/

/-! ## Auxiliary lemmas: stride loops over `List.range` -/

theorem stride_gap {T i j : Nat} (hij : i < j) (hmod : j % T = i % T) : i + T ≤ j := by
  have h1 : (j - i) % T = 0 := Nat.sub_mod_eq_zero_of_mod_eq hmod
  have h2 : T ∣ j - i := Nat.dvd_of_mod_eq_zero h1
  have h3 : T ≤ j - i := Nat.le_of_dvd (by omega) h2
  omega

theorem strideFrom_done {M T t i : Nat} (h : ¬ i < M) : strideFrom M T t i = [] := by
  unfold strideFrom
  rw [List.filter_eq_nil_iff]
  intro j hj
  have := List.mem_range.mp hj
  simp
  omega

theorem strideFrom_step {M T i : Nat} (hT : 0 < T) (h : i < M) :
    strideFrom M T (i % T) i = i :: strideFrom M T (i % T) (i + T) := by
  unfold strideFrom
  apply List.eq_of_perm_of_sorted (r := (· < ·))
  · rw [List.perm_ext_iff_of_nodup]
    · intro j
      simp only [List.mem_filter, List.mem_range, List.mem_cons, Bool.and_eq_true,
        decide_eq_true_eq]
      constructor
      · rintro ⟨hj, hm, hle⟩
        rcases Nat.eq_or_lt_of_le hle with h1 | h1
        · left; exact h1.symm
        · right; exact ⟨hj, hm, stride_gap h1 hm⟩
      · rintro (h1 | ⟨hj, hm, hle⟩)
        · subst h1; exact ⟨h, rfl, le_refl _⟩
        · exact ⟨hj, hm, by omega⟩
    · exact (List.nodup_range M).filter _
    · rw [List.nodup_cons]
      refine ⟨?_, (List.nodup_range M).filter _⟩
      simp only [List.mem_filter, Bool.and_eq_true, decide_eq_true_eq]
      rintro ⟨_, _, h3⟩
      omega
  · exact (List.sorted_lt_range M).filter _
  · rw [List.sorted_cons]
    refine ⟨?_, (List.sorted_lt_range M).filter _⟩
    intro j hj
    simp only [List.mem_filter, Bool.and_eq_true, decide_eq_true_eq] at hj
    omega

theorem strideFrom_zero (M T t : Nat) :
    strideFrom M T t 0 = (List.range M).filter (fun j => decide (j % T = t)) := by
  unfold strideFrom
  congr 1
  funext j
  simp

theorem executeBulkLoop_eq (b : List (Int × Int)) (tid T : Nat) (hT : 0 < T)
    (hov : b.length + T ≤ 2147483648) :
    ∀ (fuel i : Nat) (p : ThreadPool), 0 < fuel → b.length < fuel + i →
      executeBulkLoop b tid T fuel i p =
        some { p with pcsr := p.pcsr ++ ((strideFrom b.length T (i % T) i).filterMap
          (fun j => (b[j]?).map
            (fun e => (tid, Call.add_edge (toU32 e.1) (toU32 e.2) 1)))) } := by
  intro fuel
  induction fuel with
  | zero =>
    intro i p h0 h
    omega
  | succ fuel ih =>
    intro i p _ h
    by_cases hi : i < b.length
    · have hget : b[i]? = some b[i] := List.getElem?_eq_getElem hi
      have hno : ¬ 2147483647 < i + T := by omega
      simp only [executeBulkLoop, hi, if_true, hget, hno, if_false]
      rw [ih (i + T) _ (by omega) (by omega), strideFrom_step hT hi]
      simp [hget, Nat.add_mod_right]
    · simp only [executeBulkLoop, hi, if_false, strideFrom_done hi]
      simp

/-- When an index `j` that the loop reaches has `j + T` beyond `INT_MAX`, the
loop yields no result. -/
theorem executeBulkLoop_overflow (b : List (Int × Int)) (tid T j : Nat) (hj : j < b.length)
    (hjo : 2147483647 < j + T) :
    ∀ (fuel i : Nat) (p : ThreadPool), i ≤ j → j % T = i % T →
      executeBulkLoop b tid T fuel i p = none := by
  intro fuel
  induction fuel with
  | zero => intro i p _ _; rfl
  | succ fuel ih =>
    intro i p hij hmod
    have hi : i < b.length := by omega
    have hget : b[i]? = some b[i] := List.getElem?_eq_getElem hi
    by_cases hov : 2147483647 < i + T
    · simp only [executeBulkLoop, hi, if_true, hget, hov]
    · simp only [executeBulkLoop, hi, if_true, hget, hov, if_false]
      have hlt : i < j := by
        rcases Nat.eq_or_lt_of_le hij with h | h
        · subst h; exact absurd hjo hov
        · exact h
      exact ih (i + T) _ (stride_gap hlt hmod) (by rw [Nat.add_mod_right]; exact hmod)

theorem filterMap_get_fin {α β : Type} (E : List α) (g : α → β) (L : List (Fin E.length)) :
    (L.map Fin.val).filterMap (fun j => (E[j]?).map g) = L.map (fun i => g (E.get i)) := by
  induction L with
  | nil => rfl
  | cons a L ih =>
    simp only [List.map_cons, List.filterMap_cons]
    rw [List.getElem?_eq_getElem a.isLt]
    simp [ih]

theorem shareIdx_val (M T t : Nat) :
    (shareIdx M T t).map Fin.val = (List.range M).filter (fun j => decide (j % T = t)) := by
  unfold shareIdx
  rw [← List.map_coe_finRange, List.filter_map]
  rfl

theorem executeBulk_eq (p : ThreadPool) (E : List (Int × Int)) (t T : Nat) (hT : 0 < T)
    (ht : t < T) (hov : E.length + T ≤ 2147483648) (hb : p.bulkUpdate = some E) (fuel : Nat)
    (hf : E.length < fuel) :
    executeBulk fuel p t T =
      some { p with pcsr := p.pcsr ++ (bulkShare E T t).map (fun c => (t, c)) } := by
  unfold executeBulk
  rw [hb]
  simp only
  rw [executeBulkLoop_eq E t T hT hov fuel t p (by omega) (by omega)]
  have hmod : t % T = t := Nat.mod_eq_of_lt ht
  have h0 : strideFrom E.length T t t = strideFrom E.length T t 0 := by
    unfold strideFrom
    apply List.filter_congr
    intro j _
    by_cases hj : j % T = t
    · have : t ≤ j := by
        have := Nat.mod_le j T
        omega
      simp [hj, this]
    · simp [hj]
  rw [hmod, h0, strideFrom_zero, ← shareIdx_val, filterMap_get_fin]
  simp [bulkShare, bulkCall, share, List.map_map, Function.comp_def, hb]

theorem executeBulk_overflow (p : ThreadPool) (E : List (Int × Int)) (t T j : Nat)
    (hb : p.bulkUpdate = some E) (hj : j < E.length) (hjo : 2147483647 < j + T) (htj : t ≤ j)
    (hmod : j % T = t % T) (fuel : Nat) :
    executeBulk fuel p t T = none := by
  unfold executeBulk
  rw [hb]
  exact executeBulkLoop_overflow E t T j hj hjo fuel t p htj hmod

theorem bulkShare_eq (E : List (Int × Int)) (T t : Nat) :
    bulkShare E T t =
      (shareIdx E.length T t).map
        (fun i => Call.add_edge (toU32 (E.get i).1) (toU32 (E.get i).2) 1) := by
  simp [bulkShare, bulkCall, share, List.map_map, Function.comp_def]

theorem shareIdx_perm (M T : Nat) (hT : 0 < T) :
    List.Perm ((List.range T).flatMap (shareIdx M T)) (List.finRange M) := by
  rw [List.perm_ext_iff_of_nodup]
  · intro i
    simp only [List.mem_flatMap, List.mem_range, shareIdx, List.mem_filter, List.mem_finRange,
      true_and, decide_eq_true_eq, iff_true]
    exact ⟨i.val % T, Nat.mod_lt _ hT, rfl⟩
  · rw [List.nodup_flatMap]
    refine ⟨fun t _ => (List.nodup_finRange M).filter _, ?_⟩
    refine (List.nodup_range T).imp ?_
    intro a b hab
    simp only [Function.onFun, shareIdx]
    intro i hi hi2
    simp only [List.mem_filter, decide_eq_true_eq] at hi hi2
    exact hab (hi.2.symm.trans hi2.2)
  · exact List.nodup_finRange M

/-! ## C1 -/

/-- C1 (amended). Bulk-load partition: with a sequence `E` installed by
`submit_bulk`, `T >= 1` threads and `|E| + T <= 2^31` (the `int` counter of the
loop does not overflow), worker `t < T` in `executeBulk` returns (given fuel
above the length of `E`) after making exactly the calls
`add_edge(E[i].first, E[i].second, 1)` for the indices `i < |E|` with
`i mod T = t`, in ascending order of `i`, without reading outside `E`; and the
index sets of the `T` workers partition `[0, |E|)`. -/
theorem executeBulk_partition (p : ThreadPool) (E : List (Int × Int)) (T t : Nat)
    (hT : 1 ≤ T) (ht : t < T) (hov : E.length + T ≤ 2147483648) :
    (∀ fuel, E.length < fuel →
      executeBulk fuel (submit_bulk p E) t T =
        some { submit_bulk p E with
          pcsr := p.pcsr ++ (shareIdx E.length T t).map
            (fun i => (t, Call.add_edge (toU32 (E.get i).1) (toU32 (E.get i).2) 1)) }) ∧
    List.Perm ((List.range T).flatMap (shareIdx E.length T)) (List.finRange E.length) := by
  refine ⟨fun fuel hf => ?_, shareIdx_perm E.length T hT⟩
  rw [executeBulk_eq (submit_bulk p E) E t T hT ht hov rfl fuel hf, bulkShare_eq]
  simp [List.map_map, Function.comp_def, submit_bulk]

/-- Instance of C1 (amended): three edges, two threads, worker 1. -/
theorem executeBulk_partition_witness :
    executeBulk 4 (submit_bulk (ThreadPool.new 2 none) [(0, 1), (2, 3), (4, 5)]) 1 2 =
        some { submit_bulk (ThreadPool.new 2 none) [(0, 1), (2, 3), (4, 5)] with
          pcsr := (ThreadPool.new 2 none).pcsr ++
            (shareIdx ([(0, 1), (2, 3), (4, 5)] : List (Int × Int)).length 2 1).map
              (fun i => (1, Call.add_edge
                (toU32 (([(0, 1), (2, 3), (4, 5)] : List (Int × Int)).get i).1)
                (toU32 (([(0, 1), (2, 3), (4, 5)] : List (Int × Int)).get i).2) 1)) } ∧
    List.Perm ((List.range 2).flatMap (shareIdx [((0 : Int), (1 : Int)), (2, 3), (4, 5)].length 2))
      (List.finRange [((0 : Int), (1 : Int)), (2, 3), (4, 5)].length) :=
  ⟨(executeBulk_partition (ThreadPool.new 2 none) [(0, 1), (2, 3), (4, 5)] 2 1
      (by decide) (by decide) (by decide)).1 4 (by decide),
   (executeBulk_partition (ThreadPool.new 2 none) [(0, 1), (2, 3), (4, 5)] 2 1
      (by decide) (by decide) (by decide)).2⟩

/-- C1 as stated fails beyond the range of the `int` loop counter. With one
thread and a sequence of `2^31 + 1` edges, worker 0 reaches `i = 2^31 - 1` and
`i += 1` overflows: index `2^31` is never processed, and the loop has no
defined result. With two edges and `2^31 - 1` threads, worker 1 processes index
1 and `i += 2^31 - 1` overflows. -/
theorem executeBulk_partition_counterexample :
    executeBulk 2147483650
      (submit_bulk (ThreadPool.new 1 none) (List.replicate 2147483649 (0, 0))) 0 1 = none ∧
    no_result (fun fuel => executeBulk fuel
      (submit_bulk (ThreadPool.new 1 none) (List.replicate 2147483649 (0, 0))) 0 1) ∧
    executeBulk 3
      (submit_bulk (ThreadPool.new 2147483647 none) [(0, 0), (0, 1)]) 1 2147483647 = none ∧
    no_result (fun fuel => executeBulk fuel
      (submit_bulk (ThreadPool.new 2147483647 none) [(0, 0), (0, 1)]) 1 2147483647) := by
  have big : ∀ fuel, executeBulk fuel
      (submit_bulk (ThreadPool.new 1 none) (List.replicate 2147483649 (0, 0))) 0 1 = none :=
    fun fuel => executeBulk_overflow _ (List.replicate 2147483649 (0, 0)) 0 1 2147483647 rfl
      (by rw [List.length_replicate]; omega) (by omega) (by omega) (by omega) fuel
  have small : ∀ fuel, executeBulk fuel
      (submit_bulk (ThreadPool.new 2147483647 none) [(0, 0), (0, 1)]) 1 2147483647 = none :=
    fun fuel => executeBulk_overflow _ [(0, 0), (0, 1)] 1 2147483647 1 rfl
      (by decide) (by omega) (by omega) rfl fuel
  exact ⟨big _, big, small _, small⟩

/-! ## The worker loop -/

theorem set_self_of_getElem? {α : Type} (l : List α) (i : Nat) (a : α) (h : l[i]? = some a) :
    l.set i a = l := by
  apply List.ext_getElem?
  intro j
  rw [List.getElem?_set]
  by_cases hij : i = j
  · subst hij
    have hlt : i < l.length := by
      rcases Nat.lt_or_ge i l.length with h1 | h1
      · exact h1
      · rw [List.getElem?_eq_none h1] at h; cases h
    simp [hlt, h]
  · simp [hij]

theorem lt_length_of_getElem? {α : Type} {l : List α} {i : Nat} {a : α} (h : l[i]? = some a) :
    i < l.length := by
  rcases Nat.lt_or_ge i l.length with h1 | h1
  · exact h1
  · rw [List.getElem?_eq_none h1] at h; cases h

theorem executeLoop_drain (tid : Nat) :
    ∀ (q : List task) (fuel : Nat) (p : ThreadPool), p.tasks[tid]? = some q →
      p.finished = true → q.length < fuel →
      executeLoop tid fuel p =
        some { p with tasks := p.tasks.set tid [],
                      pcsr := p.pcsr ++ q.map (fun t => (tid, taskCall t)) } := by
  intro q
  induction q with
  | nil =>
    intro fuel p hq hfin hf
    obtain ⟨f, rfl⟩ : ∃ f, fuel = f + 1 := ⟨fuel - 1, by simp at hf; omega⟩
    obtain ⟨pc, tp, tk, bu, fi⟩ := p
    simp only at hq hfin
    subst hfin
    simp [executeLoop, hq, set_self_of_getElem? _ _ _ hq]
  | cons t rest ih =>
    intro fuel p hq hfin hf
    obtain ⟨f, rfl⟩ : ∃ f, fuel = f + 1 := ⟨fuel - 1, by simp at hf; omega⟩
    have hlt := lt_length_of_getElem? hq
    obtain ⟨pc, tp, tk, bu, fi⟩ := p
    simp only at hq hfin hlt
    subst hfin
    simp only [executeLoop, hq]
    simp only [Bool.not_true, List.isEmpty_cons, Bool.not_false, Bool.or_true, if_true]
    rw [ih f _ (by simp [hlt]) rfl (by simp at hf; omega)]
    simp

theorem execute_eq (p : ThreadPool) (tid T : Nat) (q : List task) (hq : p.tasks[tid]? = some q)
    (hfin : p.finished = true) (ht : tid < T)
    (hov : ∀ E, p.bulkUpdate = some E → E.length + T ≤ 2147483648) (fuel : Nat)
    (hf1 : q.length < fuel) (hf2 : bulkLen p < fuel) :
    execute fuel p tid T =
      some { p with tasks := p.tasks.set tid [],
                    pcsr := p.pcsr ++
                      ((bulkPrefix p T tid ++ q.map taskCall).map (fun c => (tid, c))) } := by
  unfold execute
  obtain ⟨pc, tp, tk, bu, fi⟩ := p
  simp only at hq hfin hov
  subst hfin
  cases bu with
  | none =>
    simp only [bne_self_eq_false, Bool.false_eq_true, if_false]
    rw [executeLoop_drain tid q fuel _ hq rfl hf1]
    simp [bulkPrefix]
  | some E =>
    have hne : (some E != none) = true := rfl
    simp only [hne, if_true]
    have hlen : E.length < fuel := by simpa [bulkLen] using hf2
    rw [executeBulk_eq _ E tid T (by omega) ht (hov E rfl) rfl fuel hlen]
    simp only
    rw [executeLoop_drain tid q fuel _ hq rfl hf1]
    simp [bulkPrefix]

theorem executeLoop_spin (tid : Nat) :
    ∀ (fuel : Nat) (p : ThreadPool), p.finished = false → executeLoop tid fuel p = none := by
  intro fuel
  induction fuel with
  | zero => intro p _; rfl
  | succ fuel ih =>
    intro p hfin
    unfold executeLoop
    cases hq : p.tasks[tid]? with
    | none => rfl
    | some q =>
      cases q with
      | nil =>
        simp only [hfin, Bool.not_false, Bool.true_or, if_true]
        exact ih p hfin
      | cons t rest =>
        simp only [hfin, Bool.not_false, Bool.true_or, if_true]
        exact ih _ rfl

theorem executeBulkLoop_finished (b : List (Int × Int)) (tid T : Nat) :
    ∀ (fuel i : Nat) (p p1 : ThreadPool), executeBulkLoop b tid T fuel i p = some p1 →
      p1.finished = p.finished := by
  intro fuel
  induction fuel with
  | zero => intro i p p1 h; cases h
  | succ fuel ih =>
    intro i p p1 h
    unfold executeBulkLoop at h
    by_cases hi : i < b.length
    · have hget : b[i]? = some b[i] := List.getElem?_eq_getElem hi
      simp only [hi, if_true, hget] at h
      by_cases hov : 2147483647 < i + T
      · simp [hov] at h
      · simp only [hov, if_false] at h
        have h1 := ih (i + T) _ p1 h
        exact h1
    · simp only [hi, if_false, Option.some.injEq] at h
      rw [← h]

theorem execute_spin (fuel : Nat) (p : ThreadPool) (tid T : Nat) (hfin : p.finished = false) :
    execute fuel p tid T = none := by
  unfold execute
  by_cases hb : (p.bulkUpdate != none) = true
  · simp only [hb, if_true]
    cases h : executeBulk fuel p tid T with
    | none => rfl
    | some p1 =>
      have h1 : p1.finished = false := by
        unfold executeBulk at h
        cases hbu : p.bulkUpdate with
        | none => rw [hbu] at h; cases h
        | some E =>
          rw [hbu] at h
          rw [executeBulkLoop_finished E tid T fuel tid p p1 h, hfin]
      exact executeLoop_spin tid fuel p1 h1
  · simp only [hb, Bool.false_eq_true, if_false]
    exact executeLoop_spin tid fuel p hfin

theorem submit_eq (p : ThreadPool) (tid : Nat) (q : List task) (hq : p.tasks[tid]? = some q)
    (s : Submission) :
    ∃ t, s.submit p tid = some { p with tasks := p.tasks.set tid (q ++ [t]) } ∧
      taskCall t = s.call := by
  cases s with
  | add a b => exact ⟨⟨true, false, a, b⟩, by simp [Submission.submit, submit_add, hq], rfl⟩
  | delete a b => exact ⟨⟨false, false, a, b⟩, by simp [Submission.submit, submit_delete, hq], rfl⟩
  | read a => exact ⟨⟨false, true, a, a⟩, by simp [Submission.submit, submit_read, hq], rfl⟩

theorem submitAll_eq (tid : Nat) :
    ∀ (subs : List Submission) (p : ThreadPool) (q : List task), p.tasks[tid]? = some q →
      ∃ ts, submitAll p tid subs = some { p with tasks := p.tasks.set tid (q ++ ts) } ∧
        ts.map taskCall = subs.map Submission.call := by
  intro subs
  induction subs with
  | nil =>
    intro p q hq
    exact ⟨[], by simp [submitAll, set_self_of_getElem? _ _ _ hq], rfl⟩
  | cons s subs ih =>
    intro p q hq
    obtain ⟨t, h1, h2⟩ := submit_eq p tid q hq s
    have hlt := lt_length_of_getElem? hq
    obtain ⟨ts, h3, h4⟩ := ih { p with tasks := p.tasks.set tid (q ++ [t]) } (q ++ [t])
      (by simp [hlt])
    refine ⟨t :: ts, ?_, by simp [h2, h4]⟩
    simp only [submitAll, List.foldlM_cons, h1, Option.bind_eq_bind, Option.some_bind] at h3 ⊢
    rw [h3]
    simp

/-! ## C2 -/

/-- C2 (amended). Worker drain and dispatch: for every sequence of submissions
made to the (empty) queue of worker `tid` with `submit_add`, `submit_delete` and
`submit_read`, and with the `finished` flag set, `execute` returns (given fuel
above the lengths of the queue and of the installed bulk sequence) with the
queue empty again, and the core calls it has made are the worker's bulk share,
if a bulk sequence is installed, followed by one call per task in FIFO order:
`add_edge(src, target, 1)`, `remove_edge(src, target)` or
`read_neighbourhood(src)`. An installed bulk sequence is one whose length plus
`T` is at most `2^31`, so that the `int` counter of `executeBulk` stays in
range. -/
theorem execute_drains (p : ThreadPool) (tid T : Nat) (subs : List Submission) (fuel : Nat)
    (hq : p.tasks[tid]? = some []) (ht : tid < T)
    (hov : p.bulkUpdate = none ∨ bulkLen p + T ≤ 2147483648) (hf1 : subs.length < fuel)
    (hf2 : bulkLen p < fuel) :
    (submitAll p tid subs).bind (fun p1 => execute fuel { p1 with finished := true } tid T) =
      some { p with finished := true,
                    pcsr := p.pcsr ++
                      (bulkPrefix p T tid ++ subs.map Submission.call).map (fun c => (tid, c)) } := by
  obtain ⟨ts, h1, h2⟩ := submitAll_eq tid subs p [] hq
  have hlt := lt_length_of_getElem? hq
  have hlen : ts.length = subs.length := by
    have := congrArg List.length h2
    simpa using this
  rw [h1]
  simp only [Option.some_bind, List.nil_append]
  rw [execute_eq _ tid T ts (by simp [hlt]) rfl ht
    (by
      intro E hE
      rcases hov with h | h
      · simp only at hE
        rw [h] at hE
        cases hE
      · simp only at hE
        simpa [bulkLen, hE] using h)
    fuel (by omega) (by simpa [bulkLen] using hf2)]
  simp [bulkPrefix, h2, set_self_of_getElem? _ _ _ hq]

/-- Instance of C2 (amended): three submissions to worker 1 of 2, with a bulk
sequence of three edges installed. -/
theorem execute_drains_witness :
    (submitAll (submit_bulk (ThreadPool.new 2 none) [(0, 1), (2, 3), (4, 5)]) 1
        [Submission.add 3 4, Submission.read 3, Submission.delete 3 4]).bind
      (fun p1 => execute 4 { p1 with finished := true } 1 2) =
      some { submit_bulk (ThreadPool.new 2 none) [(0, 1), (2, 3), (4, 5)] with
        finished := true,
        pcsr := (submit_bulk (ThreadPool.new 2 none) [(0, 1), (2, 3), (4, 5)]).pcsr ++
          (bulkPrefix (submit_bulk (ThreadPool.new 2 none) [(0, 1), (2, 3), (4, 5)]) 2 1 ++
            [Submission.add 3 4, Submission.read 3, Submission.delete 3 4].map
              Submission.call).map (fun c => (1, c)) } :=
  execute_drains (submit_bulk (ThreadPool.new 2 none) [(0, 1), (2, 3), (4, 5)]) 1 2
    [Submission.add 3 4, Submission.read 3, Submission.delete 3 4] 4
    (by decide) (by decide) (by decide) (by decide) (by decide)

/-- C2 as stated fails when a bulk sequence is installed: with `bulkUpdate`
pointing to `[(0, 1)]` and the single submission `submit_add(0, 1, 2)`, worker 0
of 1 makes the calls `add_edge(0, 1, 1); add_edge(1, 2, 1)`, which is not the
submitted sequence mapped through the dispatch. -/
theorem execute_drains_counterexample :
    (submitAll (submit_bulk (ThreadPool.new 1 none) [(0, 1)]) 0 [Submission.add 1 2]).bind
        (fun p1 => (execute 3 { p1 with finished := true } 0 1).map (fun p2 => callsOf 0 p2.pcsr)) =
      some [Call.add_edge 0 1 1, Call.add_edge 1 2 1] ∧
    [Call.add_edge 0 1 1, Call.add_edge 1 2 1] ≠ [Submission.add 1 2].map Submission.call := by
  decide

/-! ## The submission loops of the driver -/

theorem enq_succ (input : List (Int × Int)) (mk : Int × Int → task) (T n q : Nat) (e : Int × Int)
    (he : input[n]? = some e) :
    enq input mk T (n + 1) q = enq input mk T n q ++ (if n % T = q then [mk e] else []) := by
  unfold enq
  rw [List.range_succ, List.filter_append, List.filterMap_append]
  by_cases h : n % T = q
  · simp [h, he]
  · simp [h]

theorem enq_eq_share (input : List (Int × Int)) (mk : Int × Int → task) (T n q : Nat)
    (hn : n ≤ input.length) :
    enq input mk T n q = (share (input.take n) T q).map mk := by
  have aux : ∀ (E : List (Int × Int)), E.length = n → (∀ j, j < n → E[j]? = input[j]?) →
      enq input mk T n q = (share E T q).map mk := by
    intro E hlen key
    subst hlen
    unfold enq share
    rw [List.map_map]
    have h1 := filterMap_get_fin E mk (shareIdx E.length T q)
    rw [shareIdx_val] at h1
    rw [Function.comp_def, ← h1]
    apply List.filterMap_congr
    intro j hj
    have hj' : j < E.length := List.mem_range.mp (List.mem_filter.mp hj).1
    rw [key j hj']
  exact aux _ (by simp [hn]) (fun j hj => List.getElem?_take_of_lt hj)

theorem enqueue_foldl (input : List (Int × Int)) (mk : Int × Int → task) (T : Nat) (hT : 0 < T)
    (f : ThreadPool → Nat → Option ThreadPool)
    (hf : ∀ (q : ThreadPool) (i : Nat) (e : Int × Int) (old : List task),
      input[i]? = some e → q.tasks[i % T]? = some old →
      f q i = some { q with tasks := q.tasks.set (i % T) (old ++ [mk e]) })
    (p : ThreadPool) (hlen : p.tasks.length = T) :
    ∀ n, n ≤ input.length →
      (List.range n).foldlM f p =
        some { p with tasks := p.tasks.mapIdx (fun q old => old ++ enq input mk T n q) } := by
  intro n
  induction n with
  | zero =>
    intro _
    have : p.tasks.mapIdx (fun q old => old ++ enq input mk T 0 q) = p.tasks := by
      apply List.ext_getElem?
      intro j
      simp [enq]
    simp [this]
  | succ n ih =>
    intro hn
    have hlt : n < input.length := by omega
    have he : input[n]? = some input[n] := List.getElem?_eq_getElem hlt
    have hq : n % T < p.tasks.length := by rw [hlen]; exact Nat.mod_lt _ hT
    rw [List.range_succ, List.foldlM_append, ih (by omega)]
    simp only [Option.bind_eq_bind, Option.some_bind, List.foldlM_cons, List.foldlM_nil]
    rw [hf _ n input[n] (p.tasks[n % T] ++ enq input mk T n (n % T)) he
      (by simp [List.getElem?_mapIdx, List.getElem?_eq_getElem hq])]
    simp only [Option.some_bind, Option.pure_def, Option.some.injEq]
    congr 1
    apply List.ext_getElem?
    intro j
    rw [List.getElem?_set]
    simp only [List.getElem?_mapIdx, List.length_mapIdx]
    by_cases hj : n % T = j
    · subst hj
      simp [hq, List.getElem?_eq_getElem hq, enq_succ input mk T n _ _ he]
    · simp [hj, enq_succ input mk T n _ _ he]

theorem share_length_sum {α : Type} (E : List α) (T : Nat) (hT : 0 < T) :
    ((List.range T).map (fun q => (share E T q).length)).sum = E.length := by
  have h := (shareIdx_perm E.length T hT).length_eq
  rw [List.length_flatMap] at h
  simpa [share, Function.comp_def] using h

theorem update_existing_graph_loop_eq (p : ThreadPool) (input : List (Int × Int)) (T size : Nat)
    (hT : 1 ≤ T) (hlen : p.tasks.length = T) (hsize : size ≤ input.length) :
    update_existing_graph_loop input p T size =
      some { p with tasks := p.tasks.mapIdx (fun q old =>
        old ++ (share (input.take size) T q).map (fun e => ⟨true, false, e.1, e.2⟩)) } := by
  have hT0 : T ≠ 0 := by omega
  unfold update_existing_graph_loop
  rw [enqueue_foldl input (fun e => ⟨true, false, e.1, e.2⟩) T hT _ _ p hlen size hsize]
  · congr 3
    funext q old
    rw [enq_eq_share _ _ _ _ _ hsize]
  · intro q i e old he hq
    simp [he, hT0, submit_add, hq]

theorem thread_pool_deletions_loop_eq (p : ThreadPool) (input : List (Int × Int)) (T size : Nat)
    (hT : 1 ≤ T) (hlen : p.tasks.length = T) (hsize : size ≤ input.length) :
    thread_pool_deletions_loop p input T size =
      some { p with tasks := p.tasks.mapIdx (fun q old =>
        old ++ (share (input.take size) T q).map (fun e => ⟨false, false, e.1, e.2⟩)) } := by
  have hT0 : T ≠ 0 := by omega
  unfold thread_pool_deletions_loop
  rw [enqueue_foldl input (fun e => ⟨false, false, e.1, e.2⟩) T hT _ _ p hlen size hsize]
  · congr 3
    funext q old
    rw [enq_eq_share _ _ _ _ _ hsize]
  · intro q i e old he hq
    simp [he, hT0, submit_delete, hq]

/-! ## C9 -/

/-- C9 (amended). Number of update operations: for every thread count `T >= 1`
(pool with `T` queues), every update list `input` and every `size` that does
not exceed the length of `input`, the loops of `update_existing_graph` and
`thread_pool_deletions` succeed without an out-of-range access and append to
queue `q` the tasks of the pairs `input[i]`, `i < size`, `i mod T = q`, in
ascending order of `i` (add tasks, respectively delete tasks); `size` tasks are
enqueued in all. -/
theorem update_loops_enqueue (p : ThreadPool) (input : List (Int × Int)) (T size : Nat)
    (hT : 1 ≤ T) (hlen : p.tasks.length = T) (hsize : size ≤ input.length) :
    update_existing_graph_loop input p T size =
      some { p with tasks := p.tasks.mapIdx (fun q old =>
        old ++ (share (input.take size) T q).map (fun e => ⟨true, false, e.1, e.2⟩)) } ∧
    thread_pool_deletions_loop p input T size =
      some { p with tasks := p.tasks.mapIdx (fun q old =>
        old ++ (share (input.take size) T q).map (fun e => ⟨false, false, e.1, e.2⟩)) } ∧
    ((List.range T).map (fun q => (share (input.take size) T q).length)).sum = size := by
  refine ⟨update_existing_graph_loop_eq p input T size hT hlen hsize,
    thread_pool_deletions_loop_eq p input T size hT hlen hsize, ?_⟩
  rw [share_length_sum _ T hT]
  simp [hsize]

/-- Instance of C9 (amended): three updates, two threads, `size = 3`. -/
theorem update_loops_enqueue_witness :
    update_existing_graph_loop [(1, 2), (3, 4), (5, 6)] (ThreadPool.new 2 none) 2 3 =
      some { ThreadPool.new 2 none with tasks := (ThreadPool.new 2 none).tasks.mapIdx (fun q old =>
        old ++ (share (([(1, 2), (3, 4), (5, 6)] : List (Int × Int)).take 3) 2 q).map
          (fun e => ⟨true, false, e.1, e.2⟩)) } ∧
    thread_pool_deletions_loop (ThreadPool.new 2 none) [(1, 2), (3, 4), (5, 6)] 2 3 =
      some { ThreadPool.new 2 none with tasks := (ThreadPool.new 2 none).tasks.mapIdx (fun q old =>
        old ++ (share (([(1, 2), (3, 4), (5, 6)] : List (Int × Int)).take 3) 2 q).map
          (fun e => ⟨false, false, e.1, e.2⟩)) } ∧
    ((List.range 2).map (fun q =>
      (share (([(1, 2), (3, 4), (5, 6)] : List (Int × Int)).take 3) 2 q).length)).sum = 3 :=
  update_loops_enqueue (ThreadPool.new 2 none) [(1, 2), (3, 4), (5, 6)] 2 3
    (by decide) (by decide) (by decide)

/-- C9 as stated fails when `size` exceeds the length of the update list: with
one thread, an empty update list and `size = 1`, both loops read `input[0]`
outside the vector. -/
theorem update_loops_enqueue_counterexample :
    update_existing_graph_loop [] (ThreadPool.new 1 none) 1 1 = none ∧
    thread_pool_deletions_loop (ThreadPool.new 1 none) [] 1 1 = none ∧
    update_existing_graph 8 (fun _ => true) [] (ThreadPool.new 1 none) 1 1 = none ∧
    thread_pool_deletions 8 (fun _ => true) (ThreadPool.new 1 none) [] 1 1 = none := by
  decide

/-! ## A start/stop cycle -/

theorem getElem?_drain (ws : List Nat) :
    ∀ (l : List (List task)) (j : Nat),
      (ws.foldl (fun l i => l.set i []) l)[j]? =
        if j ∈ ws then (if j < l.length then some [] else none) else l[j]? := by
  induction ws with
  | nil => intro l j; simp
  | cons i ws ih =>
    intro l j
    simp only [List.foldl_cons, ih, List.length_set, List.getElem?_set, List.mem_cons]
    by_cases h1 : j ∈ ws
    · simp [h1]
    · by_cases h2 : i = j
      · subst h2
        simp [h1]
      · have h3 : ¬ j = i := fun h => h2 h.symm
        simp [h1, h2, h3]

theorem drain_range (l : List (List task)) :
    (List.range l.length).foldl (fun l i => l.set i []) l = List.replicate l.length [] := by
  apply List.ext_getElem?
  intro j
  rw [getElem?_drain]
  by_cases hj : j < l.length
  · simp [hj, List.getElem?_replicate]
  · simp [hj, List.getElem?_replicate, List.getElem?_eq_none (Nat.le_of_not_lt hj)]

theorem workerCalls_set (pc pc2 : List (Nat × Call)) (tp tp2 : List (Nat × Nat))
    (tk : List (List task)) (bu : Option (List (Int × Int))) (fi fi2 : Bool) (T i j : Nat)
    (hne : i ≠ j) :
    workerCalls ⟨pc2, tp2, tk.set i [], bu, fi2⟩ T j = workerCalls ⟨pc, tp, tk, bu, fi⟩ T j := by
  simp [workerCalls, bulkPrefix, List.getD_eq_getElem?_getD, List.getElem?_set, hne]

theorem joinAll_eq (T fuel : Nat) (sees : Nat → Bool) :
    ∀ (ws : List Nat) (p : ThreadPool), ws.Nodup → (∀ w ∈ ws, w < T ∧ w < p.tasks.length) →
      (∀ w ∈ ws, sees w = true) → p.finished = true →
      (∀ E, p.bulkUpdate = some E → E.length + T ≤ 2147483648) →
      bulkLen p < fuel → (∀ q ∈ p.tasks, q.length < fuel) →
      joinAll fuel sees (ws.map (fun i => (i, T))) p =
        some { p with
          tasks := ws.foldl (fun l i => l.set i []) p.tasks,
          pcsr := p.pcsr ++ ws.flatMap (fun i => (workerCalls p T i).map (fun c => (i, c))) } := by
  intro ws
  induction ws with
  | nil => intro p _ _ _ _ _ _ _; simp [joinAll]
  | cons i ws ih =>
    intro p hnd hw hs hfin hov hb hq
    obtain ⟨hiT, hil⟩ := hw i (List.mem_cons_self _ _)
    have hsi : sees i = true := hs i (List.mem_cons_self _ _)
    have hqi : p.tasks[i]? = some p.tasks[i] := List.getElem?_eq_getElem hil
    have hnd' := List.nodup_cons.mp hnd
    have hqlen := hq _ (List.getElem_mem hil)
    have hwc : workerCalls p T i = bulkPrefix p T i ++ p.tasks[i].map taskCall := by
      simp [workerCalls, List.getD_eq_getElem?_getD, hqi]
    have hex := execute_eq p i T p.tasks[i] hqi hfin hiT hov fuel hqlen hb
    rw [← hwc] at hex
    obtain ⟨pc, tp, tk, bu, fi⟩ := p
    simp only at hw hfin hov hb hq hil hqi hwc hex ⊢
    subst hfin
    simp only [List.map_cons, joinAll, hsi, hex]
    rw [ih ⟨pc ++ (workerCalls ⟨pc, tp, tk, bu, true⟩ T i).map (fun c => (i, c)), tp,
          tk.set i [], bu, true⟩ hnd'.2 (fun w hw' => by
          have := hw w (List.mem_cons_of_mem _ hw')
          simpa using this) (fun w hw' => hs w (List.mem_cons_of_mem _ hw')) rfl hov
        (by simpa [bulkLen] using hb)
        (fun q hq' => by
          rcases List.mem_or_eq_of_mem_set hq' with h | h
          · exact hq q h
          · subst h; simp; omega)]
    have hfm : ws.flatMap (fun j =>
          (workerCalls ⟨pc ++ (workerCalls ⟨pc, tp, tk, bu, true⟩ T i).map (fun c => (i, c)), tp,
            tk.set i [], bu, true⟩ T j).map (fun c => (j, c))) =
        ws.flatMap (fun j => (workerCalls ⟨pc, tp, tk, bu, true⟩ T j).map (fun c => (j, c))) := by
      simp only [List.flatMap_def]
      congr 1
      apply List.map_congr_left
      intro j hj
      have hne : i ≠ j := fun h => hnd'.1 (h ▸ hj)
      rw [workerCalls_set pc _ tp _ tk bu true _ T i j hne]
    simp only [hfm]
    simp

theorem joinAll_spin (fuel : Nat) (sees : Nat → Bool) :
    ∀ (ws : List (Nat × Nat)) (p : ThreadPool), (∃ w ∈ ws, sees w.1 = false) →
      joinAll fuel sees ws p = none := by
  intro ws
  induction ws with
  | nil => intro p h; obtain ⟨w, hw, _⟩ := h; cases hw
  | cons w ws ih =>
    intro p h
    obtain ⟨i, n⟩ := w
    unfold joinAll
    by_cases hsi : sees i = false
    · rw [execute_spin fuel _ i n (by simp [hsi])]
    · cases hex : execute fuel { p with finished := sees i } i n with
      | none => rfl
      | some p1 =>
        simp only
        apply ih
        obtain ⟨w, hw, hsw⟩ := h
        rcases List.mem_cons.mp hw with h1 | h1
        · subst h1; exact absurd hsw hsi
        · exact ⟨w, h1, hsw⟩

theorem cycle_eq (p : ThreadPool) (T fuel : Nat) (sees : Nat → Bool) (htp : p.thread_pool = [])
    (hlen : p.tasks.length = T) (hs : ∀ t, t < T → sees t = true)
    (hov : ∀ E, p.bulkUpdate = some E → E.length + T ≤ 2147483648)
    (hb : bulkLen p < fuel) (hq : ∀ q ∈ p.tasks, q.length < fuel) :
    stop fuel sees (start p T) =
      some { pcsr := p.pcsr ++
               (List.range T).flatMap (fun i => (workerCalls p T i).map (fun c => (i, c))),
             thread_pool := [], tasks := List.replicate T [], bulkUpdate := none,
             finished := true } := by
  unfold stop start
  simp only [htp, List.nil_append]
  rw [joinAll_eq T fuel sees (List.range T)
    ⟨p.pcsr, (List.range T).map (fun i => (i, T)), p.tasks, p.bulkUpdate, true⟩
    (List.nodup_range T)
    (fun w hw => by simpa [hlen] using List.mem_range.mp hw)
    (fun w hw => hs w (List.mem_range.mp hw)) rfl hov (by simpa [bulkLen] using hb)
    (by simpa using hq)]
  subst hlen
  simp [drain_range, workerCalls, bulkPrefix]

theorem cycle_spin (p : ThreadPool) (T t fuel : Nat) (sees : Nat → Bool) (ht : t < T)
    (hs : sees t = false) : stop fuel sees (start p T) = none := by
  unfold stop start
  simp only
  rw [joinAll_spin fuel sees _ _ ⟨(t, T), by simp [ht], hs⟩]

theorem callsOf_flatMap (f : Nat → List Call) (t : Nat) :
    ∀ T, callsOf t ((List.range T).flatMap (fun i => (f i).map (fun c => (i, c)))) =
      if t < T then f t else [] := by
  intro T
  induction T with
  | zero => simp [callsOf]
  | succ T ih =>
    have happ : ∀ l1 l2 : List (Nat × Call), callsOf t (l1 ++ l2) = callsOf t l1 ++ callsOf t l2 := by
      intro l1 l2; simp [callsOf]
    have hone : ∀ (i : Nat) (l : List Call), callsOf t (l.map (fun c => (i, c))) =
        if i = t then l else [] := by
      intro i l
      by_cases h : i = t
      · simp [callsOf, h, List.filter_map, Function.comp_def]
      · simp [callsOf, h, List.filter_map, Function.comp_def]
    rw [List.range_succ, List.flatMap_append, happ, ih]
    simp only [List.flatMap_cons, List.flatMap_nil, List.append_nil, hone]
    by_cases h1 : t < T
    · have : ¬ T = t := by omega
      simp [h1, this, Nat.lt_succ_of_lt h1]
    · by_cases h2 : T = t
      · subst h2; simp
      · have : ¬ t < T + 1 := by omega
        simp [h1, h2, this]

theorem share_perm {α : Type} (E : List α) (T : Nat) (hT : 0 < T) :
    List.Perm ((List.range T).flatMap (share E T)) E := by
  have h := (shareIdx_perm E.length T hT).map (fun i => E.get i)
  rw [List.map_flatMap] at h
  have h2 : (List.finRange E.length).map (fun i => E.get i) = E := List.finRange_map_get E
  rw [h2] at h
  exact h

theorem share_length_le {α : Type} (E : List α) (T t : Nat) : (share E T t).length ≤ E.length := by
  unfold share shareIdx
  rw [List.length_map]
  calc ((List.finRange E.length).filter _).length ≤ (List.finRange E.length).length :=
        List.length_filter_le _ _
    _ = E.length := List.length_finRange _

/-! ## C10 -/

theorem insert_with_thread_pool_eq (E : List (Int × Int)) (T : Nat)
    (bulk0 : Option (List (Int × Int))) (sees : Nat → Bool) (fuel : Nat)
    (hs : ∀ t, t < T → sees t = true) (hov : E.length + T ≤ 2147483648)
    (hf : E.length < fuel) :
    insert_with_thread_pool fuel sees E T bulk0 =
      some { pcsr := (List.range T).flatMap (fun i =>
               ((share E T i).map
                 (fun e => Call.add_edge (toU32 e.1) (toU32 e.2) 1)).map (fun c => (i, c))),
             thread_pool := [], tasks := List.replicate T [], bulkUpdate := none,
             finished := true } := by
  unfold insert_with_thread_pool
  rw [cycle_eq _ T fuel sees rfl (by simp [submit_bulk, ThreadPool.new]) hs
    (by
      intro E1 hE1
      simp only [submit_bulk, Option.some.injEq] at hE1
      rw [← hE1]
      exact hov)
    (by simpa [bulkLen, submit_bulk] using hf)
    (by
      intro q hq
      simp only [submit_bulk, ThreadPool.new] at hq
      rw [List.eq_of_mem_replicate hq]
      simp only [List.length_nil]
      omega)]
  simp only [submit_bulk, ThreadPool.new, List.nil_append, Option.some.injEq,
    ThreadPool.mk.injEq, and_true]
  simp only [List.flatMap_def]
  congr 1
  apply List.map_congr_left
  intro i hi
  have hi' : i < T := List.mem_range.mp hi
  simp [workerCalls, bulkPrefix, bulkShare, bulkCall, List.getD_eq_getElem?_getD,
    List.getElem?_replicate, hi']

theorem execute_overflow (p : ThreadPool) (E : List (Int × Int)) (t T j : Nat)
    (hb : p.bulkUpdate = some E) (hj : j < E.length) (hjo : 2147483647 < j + T) (htj : t ≤ j)
    (hmod : j % T = t % T) (fuel : Nat) :
    execute fuel p t T = none := by
  unfold execute
  have hne : (p.bulkUpdate != none) = true := by rw [hb]; rfl
  simp only [hne, if_true]
  rw [executeBulk_overflow p E t T j hb hj hjo htj hmod fuel]

theorem insert_with_thread_pool_overflow (E : List (Int × Int)) (T j : Nat)
    (bulk0 : Option (List (Int × Int))) (sees : Nat → Bool) (hT : 1 ≤ T) (hj : j < E.length)
    (hjo : 2147483647 < j + T) (hmod : j % T = 0) (fuel : Nat) :
    insert_with_thread_pool fuel sees E T bulk0 = none := by
  obtain ⟨n, rfl⟩ : ∃ n, T = n + 1 := ⟨T - 1, by omega⟩
  unfold insert_with_thread_pool stop start
  simp only [submit_bulk, ThreadPool.new, List.nil_append, List.range_succ_eq_map, List.map_cons,
    joinAll]
  rw [execute_overflow _ E 0 (n + 1) j rfl hj hjo (Nat.zero_le _) (by simpa using hmod) fuel]

theorem getD_set_queue (tk : List (List task)) (i q : Nat) (new : List task)
    (hi : i < tk.length) :
    (tk.set i new).getD q [] = if i = q then new else tk.getD q [] := by
  simp only [List.getD_eq_getElem?_getD, List.getElem?_set]
  by_cases h : i = q
  · subst h; simp [hi]
  · simp [h]

theorem submitEach_eq (T : Nat) :
    ∀ (subs : List (Fin T × Submission)) (p : ThreadPool), p.tasks.length = T →
      ∃ tk : List (List task),
        submitEach p (subs.map (fun s => (s.1.val, s.2))) = some { p with tasks := tk } ∧
        tk.length = T ∧
        ∀ q, (tk.getD q []).map taskCall =
          (p.tasks.getD q []).map taskCall ++
            (subs.filter (fun s => s.1.val = q)).map (fun s => s.2.call) := by
  intro subs
  induction subs with
  | nil =>
    intro p hlen
    exact ⟨p.tasks, rfl, hlen, fun q => by simp⟩
  | cons s subs ih =>
    intro p hlen
    obtain ⟨i, sub⟩ := s
    have hil : i.val < p.tasks.length := by rw [hlen]; exact i.isLt
    have hqi : p.tasks[i.val]? = some p.tasks[i.val] := List.getElem?_eq_getElem hil
    obtain ⟨t, h1, h2⟩ := submit_eq p i.val _ hqi sub
    obtain ⟨tk, h3, h4, h5⟩ :=
      ih { p with tasks := p.tasks.set i.val (p.tasks[i.val] ++ [t]) } (by simp [hlen])
    refine ⟨tk, ?_, h4, ?_⟩
    · simp only [submitEach, List.map_cons, List.foldlM_cons, h1, Option.bind_eq_bind,
        Option.some_bind] at h3 ⊢
      rw [h3]
    · intro q
      rw [h5 q]
      simp only [getD_set_queue _ _ _ _ hil]
      by_cases h : i.val = q
      · subst h
        simp [List.getD_eq_getElem?_getD, hqi, h2, List.filter_cons]
      · simp [h, List.filter_cons]

theorem filter_key_perm {α : Type} (key : α → Nat) (l : List α) :
    ∀ T, List.Perm ((List.range T).flatMap (fun i => l.filter (fun a => key a = i)))
      (l.filter (fun a => key a < T)) := by
  intro T
  induction T with
  | zero => simp
  | succ T ih =>
    rw [List.range_succ, List.flatMap_append]
    simp only [List.flatMap_cons, List.flatMap_nil, List.append_nil]
    have h1 : l.filter (fun a => decide (key a < T)) =
        (l.filter (fun a => decide (key a < T + 1))).filter (fun a => decide (key a < T)) := by
      rw [List.filter_filter]
      apply List.filter_congr
      intro a _
      by_cases h : key a < T
      · have : key a < T + 1 := by omega
        simp [h, this]
      · simp [h]
    have h2 : l.filter (fun a => decide (key a = T)) =
        (l.filter (fun a => decide (key a < T + 1))).filter (fun a => !decide (key a < T)) := by
      rw [List.filter_filter]
      apply List.filter_congr
      intro a _
      by_cases h : key a = T
      · simp [h]
      · by_cases h3 : key a < T
        · simp [h, h3]
        · have : ¬ key a < T + 1 := by omega
          simp [h, h3, this]
    refine (List.Perm.append_right _ ih).trans ?_
    rw [h1, h2]
    exact List.filter_append_perm _ _

theorem read_binary_loop_short (en : Endian) (bytes : List UInt8) (h : bytes.length < 8) :
    read_binary_loop en bytes = [] := by
  rcases bytes with _ | ⟨b0, _ | ⟨b1, _ | ⟨b2, _ | ⟨b3, _ | ⟨b4, _ | ⟨b5, _ | ⟨b6, _ | ⟨b7, rest⟩⟩⟩⟩⟩⟩⟩⟩
  all_goals first
    | rfl
    | (simp only [List.length_cons] at h; omega)

theorem exists_record (bytes : List UInt8) (h : 8 ≤ bytes.length) :
    ∃ b0 b1 b2 b3 b4 b5 b6 b7 rest,
      bytes = b0 :: b1 :: b2 :: b3 :: b4 :: b5 :: b6 :: b7 :: rest := by
  rcases bytes with _ | ⟨b0, _ | ⟨b1, _ | ⟨b2, _ | ⟨b3, _ | ⟨b4, _ | ⟨b5, _ | ⟨b6, _ | ⟨b7, rest⟩⟩⟩⟩⟩⟩⟩⟩
  all_goals first
    | exact ⟨_, _, _, _, _, _, _, _, _, rfl⟩
    | (simp only [List.length_cons, List.length_nil] at h; omega)

theorem read_binary_loop_eq (en : Endian) :
    ∀ (n : Nat) (bytes : List UInt8), bytes.length = n →
      read_binary_loop en bytes =
        (List.range (bytes.length / 8)).map
          (fun k => (toI32 (u32At en bytes (8 * k)), toI32 (u32At en bytes (8 * k + 4)))) := by
  intro n
  induction n using Nat.strong_induction_on with
  | _ n ih =>
    intro bytes hn
    by_cases hlen : bytes.length < 8
    · rw [read_binary_loop_short en bytes hlen, Nat.div_eq_of_lt hlen]
      rfl
    · obtain ⟨b0, b1, b2, b3, b4, b5, b6, b7, rest, rfl⟩ := exists_record bytes (by omega)
      have hrest := ih rest.length (by simp at hn; omega) rest rfl
      have hdiv : (b0 :: b1 :: b2 :: b3 :: b4 :: b5 :: b6 :: b7 :: rest).length / 8 =
          rest.length / 8 + 1 := by
        simp only [List.length_cons]
        omega
      rw [hdiv, List.range_succ_eq_map, List.map_cons, List.map_map]
      simp only [read_binary_loop, hrest]
      congr 1

/-! ## C5 -/

/-- C5 (amended). Binary edge list decoding: for every file whose name ends in
`.elog` and whose content has length `L`, `read_input2` returns exactly
`floor(L / 8)` edges, in file order; the `k`-th is `(src, dst)` where `src` and
`dst` are the 32-bit native-endian unsigned integers held in bytes
`[8k, 8k+4)` and `[8k+4, 8k+8)`, converted to `int` (a value of `2^31` or more
appears as the value minus `2^32`); the trailing `L mod 8` bytes are ignored. -/
theorem read_input2_binary (en : Endian) (fs : FileSystem) (filename : String)
    (bytes : List UInt8) (hname : endsWith filename ".elog" = true)
    (hfile : fs filename = some bytes) :
    read_input2 en fs filename =
      Except.ok ((List.range (bytes.length / 8)).map
        (fun k => (toI32 (u32At en bytes (8 * k)), toI32 (u32At en bytes (8 * k + 4))))) := by
  unfold read_input2 read_binary
  rw [hname, hfile]
  simp only [if_true]
  rw [read_binary_loop_eq en bytes.length bytes rfl]

/-- Instance of C5 (amended): a file of 11 bytes holds one record. -/
theorem read_input2_binary_witness :
    read_input2 Endian.little (fun _ => some [1, 0, 0, 0, 2, 1, 0, 0, 7, 7, 7]) "graph.elog" =
      Except.ok ((List.range (([1, 0, 0, 0, 2, 1, 0, 0, 7, 7, 7] : List UInt8).length / 8)).map
        (fun k => (toI32 (u32At Endian.little [1, 0, 0, 0, 2, 1, 0, 0, 7, 7, 7] (8 * k)),
                   toI32 (u32At Endian.little [1, 0, 0, 0, 2, 1, 0, 0, 7, 7, 7] (8 * k + 4))))) :=
  read_input2_binary Endian.little (fun _ => some [1, 0, 0, 0, 2, 1, 0, 0, 7, 7, 7]) "graph.elog"
    [1, 0, 0, 0, 2, 1, 0, 0, 7, 7, 7] (by decide) rfl

/-- C5 as stated fails for an end point of `2^31` or more: the record
`ff ff ff ff 00 00 00 00` holds the unsigned integers `4294967295` and `0`, and
`read_input2` returns the pair `(-1, 0)`. -/
theorem read_input2_binary_counterexample :
    read_input2 Endian.little (fun _ => some [255, 255, 255, 255, 0, 0, 0, 0]) "graph.elog" =
      Except.ok [(-1, 0)] ∧
    ((u32At Endian.little [255, 255, 255, 255, 0, 0, 0, 0] 0 : Int),
      (u32At Endian.little [255, 255, 255, 255, 0, 0, 0, 0] 4 : Int)) = (4294967295, 0) ∧
    read_input2 Endian.little (fun _ => some [255, 255, 255, 255, 0, 0, 0, 0]) "graph.elog" ≠
      Except.ok ((List.range (([255, 255, 255, 255, 0, 0, 0, 0] : List UInt8).length / 8)).map
        (fun k => ((u32At Endian.little [255, 255, 255, 255, 0, 0, 0, 0] (8 * k) : Int),
                   (u32At Endian.little [255, 255, 255, 255, 0, 0, 0, 0] (8 * k + 4) : Int)))) := by
  decide

/-! ## C8 -/

/-- C8 (failing input). A text path that cannot be opened does not make the
loader fail: `read_input2` returns the empty edge list, where `read_binary`
stops the program on its `assert(file)`. -/
theorem read_input2_unreadable :
    read_input2 Endian.little (fun _ => none) "missing.txt" = Except.ok [] ∧
    read_input (fun _ => none) "missing.txt" = Except.ok [] ∧
    read_input2 Endian.little (fun _ => none) "missing.elog" =
      Except.error LoadError.assertion_failed := by
  decide

/-! ## The text loader -/

theorem read_input_loop_eq :
    ∀ (lines : List (List UInt8)) (edges : List (Int × Int)),
      read_input_loop edges lines = parseLines 32 edges lines := by
  intro lines
  induction lines with
  | nil => intro edges; rfl
  | cons line rest ih =>
    intro edges
    simp only [read_input_loop, parseLines]
    cases parseEdge 32 line with
    | error e => rfl
    | ok edge => exact ih _

theorem read_input_eq (fs : FileSystem) (filename : String) (content : List UInt8)
    (hfile : fs filename = some content) :
    read_input fs filename = parseLines 32 [] (getlines content) := by
  unfold read_input
  rw [hfile]
  exact read_input_loop_eq _ _

theorem read_input2_loop_commas (fs : FileSystem) (filename : String) :
    ∀ (lines : List (List UInt8)) (edges : List (Int × Int)),
      (∀ line ∈ lines, find line 44 ≠ npos) →
      read_input2_loop fs filename edges lines = parseLines 44 edges lines := by
  intro lines
  induction lines with
  | nil => intro edges _; rfl
  | cons line rest ih =>
    intro edges h
    have h1 : find line 44 ≠ npos := h line (List.mem_cons_self _ _)
    simp only [read_input2_loop, parseLines, h1, if_false]
    cases parseEdge 44 line with
    | error e => rfl
    | ok edge => exact ih _ (fun l hl => h l (List.mem_cons_of_mem _ hl))

theorem read_input2_loop_fallback (fs : FileSystem) (filename : String) (line : List UInt8)
    (post : List (List UInt8)) (hline : find line 44 = npos) :
    ∀ (pre : List (List UInt8)) (edges edges' : List (Int × Int)),
      (∀ l ∈ pre, find l 44 ≠ npos) → parseLines 44 edges pre = Except.ok edges' →
      read_input2_loop fs filename edges (pre ++ line :: post) = read_input fs filename := by
  intro pre
  induction pre with
  | nil =>
    intro edges edges' _ _
    simp [read_input2_loop, hline]
  | cons l pre ih =>
    intro edges edges' hpre hparse
    have h1 : find l 44 ≠ npos := hpre l (List.mem_cons_self _ _)
    simp only [List.cons_append, read_input2_loop, h1, if_false]
    simp only [parseLines] at hparse
    cases hp : parseEdge 44 l with
    | error e => rw [hp] at hparse; cases hparse
    | ok edge =>
      rw [hp] at hparse
      exact ih _ edges' (fun l' hl' => hpre l' (List.mem_cons_of_mem _ hl')) hparse

/-! ## C6 -/

/-- C6 (amended). Separator detection: for every non-binary text file,
`read_input2` parses every line as `<src>,<dst>` when every line of the file
contains a comma; as soon as a line without a comma is met (the first line, or
a later one after lines that were read as `<src>,<dst>` without error) the
edges read so far are dropped and every line of the file is parsed as
`<src> <dst>` by `read_input`. -/
theorem read_input2_separator (en : Endian) (fs : FileSystem) (filename : String)
    (content : List UInt8) (hname : endsWith filename ".elog" = false)
    (hfile : fs filename = some content) :
    ((∀ line ∈ getlines content, find line 44 ≠ npos) →
      read_input2 en fs filename = parseLines 44 [] (getlines content)) ∧
    (∀ pre line post edges, getlines content = pre ++ line :: post →
      (∀ l ∈ pre, find l 44 ≠ npos) → parseLines 44 [] pre = Except.ok edges →
      find line 44 = npos →
      read_input2 en fs filename = parseLines 32 [] (getlines content)) := by
  constructor
  · intro h
    unfold read_input2
    rw [hname, hfile]
    exact read_input2_loop_commas fs filename _ _ h
  · intro pre line post edges hlines hpre hparse hline
    unfold read_input2
    rw [hname, hfile]
    simp only [Bool.false_eq_true, if_false]
    rw [hlines, read_input2_loop_fallback fs filename line post hline pre [] edges hpre hparse,
      read_input_eq fs filename content hfile, hlines]

/-- Instance of C6 (amended): in `"1,2\n3 4\n"` the second line has no comma and
the file is parsed by `read_input`. -/
theorem read_input2_separator_witness :
    read_input2 Endian.little (fun _ => some [49, 44, 50, 10, 51, 32, 52, 10]) "g.txt" =
      parseLines 32 [] (getlines [49, 44, 50, 10, 51, 32, 52, 10]) :=
  (read_input2_separator Endian.little (fun _ => some [49, 44, 50, 10, 51, 32, 52, 10]) "g.txt"
    [49, 44, 50, 10, 51, 32, 52, 10] (by decide) rfl).2
    [[49, 44, 50]] [51, 32, 52] [] [(1, 2)] (by decide) (by decide) (by decide) (by decide)

/-- C6 as stated fails: in the file `"1,2\n3 4\n"` the first line contains a
comma, yet the lines are not parsed as `<src>,<dst>` (which gives
`(1,2),(3,3)`): the second line has no comma, and the result is that of
`read_input`, `(1,1),(3,4)`. With a comma in the second line (`"1,2\n3,4\n"`)
the first line is read as `(1,2)`: the result depends on the later line. -/
theorem read_input2_separator_counterexample :
    find [49, 44, 50] 44 ≠ npos ∧
    getlines [49, 44, 50, 10, 51, 32, 52, 10] = [[49, 44, 50], [51, 32, 52]] ∧
    read_input2 Endian.little (fun _ => some [49, 44, 50, 10, 51, 32, 52, 10]) "g.txt" =
      Except.ok [(1, 1), (3, 4)] ∧
    parseLines 44 [] (getlines [49, 44, 50, 10, 51, 32, 52, 10]) = Except.ok [(1, 2), (3, 3)] ∧
    read_input2 Endian.little (fun _ => some [49, 44, 50, 10, 51, 32, 52, 10]) "g.txt" ≠
      parseLines 44 [] (getlines [49, 44, 50, 10, 51, 32, 52, 10]) ∧
    read_input2 Endian.little (fun _ => some [49, 44, 50, 10, 51, 44, 52, 10]) "g.txt" =
      Except.ok [(1, 2), (3, 4)] := by
  decide

/-! ## Decimal numbers -/

theorem toNat_digitByte (d : Nat) (h : d < 10) : (UInt8.ofNat (48 + d)).toNat = 48 + d := by
  show (48 + d) % 256 = 48 + d
  omega

theorem decimal_bytes (n : Nat) : ∀ b ∈ decimal n, 48 ≤ b.toNat ∧ b.toNat ≤ 57 := by
  intro b hb
  unfold decimal at hb
  split at hb
  · simp only [List.mem_singleton] at hb
    subst hb
    decide
  · simp only [List.mem_map, List.mem_reverse] at hb
    obtain ⟨d, hd, rfl⟩ := hb
    have := Nat.digits_lt_base (by decide : 1 < 10) hd
    rw [toNat_digitByte d this]
    omega

theorem decimal_ne_nil (n : Nat) : decimal n ≠ [] := by
  unfold decimal
  split
  · simp
  · rename_i h
    have := (Nat.digits_ne_nil_iff_ne_zero (b := 10)).mpr h
    simpa using this

theorem digitsValue_map (L : List Nat) (h : ∀ d ∈ L, d < 10) :
    digitsValue (L.reverse.map (fun d => UInt8.ofNat (48 + d))) = Nat.ofDigits 10 L := by
  induction L with
  | nil => rfl
  | cons d L ih =>
    have hd : d < 10 := h d (List.mem_cons_self _ _)
    have ih' := ih (fun x hx => h x (List.mem_cons_of_mem _ hx))
    unfold digitsValue at ih' ⊢
    rw [List.reverse_cons, List.map_append, List.foldl_append, ih', Nat.ofDigits_cons]
    simp only [List.map_cons, List.map_nil, List.foldl_cons, List.foldl_nil, toNat_digitByte d hd]
    omega

theorem digitsValue_decimal (n : Nat) : digitsValue (decimal n) = n := by
  unfold decimal
  split
  · rename_i h
    subst h
    rfl
  · rw [digitsValue_map _ (fun d hd => Nat.digits_lt_base (by decide) hd), Nat.ofDigits_digits]

theorem decimal_length (n : Nat) (h : n ≤ 2147483647) : (decimal n).length ≤ 11 := by
  unfold decimal
  split
  · simp
  · rename_i h0
    simp only [List.length_map, List.length_reverse]
    by_contra hlen
    have h1 : 10 ^ 12 ≤ 10 ^ (Nat.digits 10 n).length :=
      Nat.pow_le_pow_right (by decide) (by omega)
    have h2 := Nat.base_pow_length_digits_le 10 n (by decide) h0
    omega

theorem stoi_decimal (n : Nat) (h : n ≤ 2147483647) : stoi (decimal n) = Except.ok (n : Int) := by
  have hb := decimal_bytes n
  have hne := decimal_ne_nil n
  have hval := digitsValue_decimal n
  generalize decimal n = s at hb hne hval
  cases s with
  | nil => exact absurd rfl hne
  | cons b rest =>
    have hb0 := hb b (List.mem_cons_self _ _)
    have hsp : isspace b = false := by
      simp only [isspace, Bool.or_eq_false_iff, decide_eq_false_iff_not]
      refine ⟨⟨⟨⟨⟨?_, ?_⟩, ?_⟩, ?_⟩, ?_⟩, ?_⟩ <;>
      · intro hh
        rw [hh] at hb0
        revert hb0
        decide
    have h45 : b ≠ 45 := by
      intro hh; rw [hh] at hb0; revert hb0; decide
    have h43 : b ≠ 43 := by
      intro hh; rw [hh] at hb0; revert hb0; decide
    have htw : (b :: rest).takeWhile isdigit = b :: rest := by
      rw [List.takeWhile_eq_self_iff]
      intro x hx
      have := hb x hx
      simp [isdigit, this.1, this.2]
    simp only [stoi, List.dropWhile_cons, hsp, h45, h43, if_false, Bool.false_eq_true, stoiDigits,
      htw, List.isEmpty_cons, hval]
    have h1 : ¬ ((n : Int) < -2147483648 ∨ 2147483647 < (n : Int)) := by omega
    simp only [h1, if_false]

theorem not_mem_decimal (n : Nat) (c : UInt8) (hc : c = 32 ∨ c = 44 ∨ c = 10) : c ∉ decimal n := by
  intro hmem
  have := decimal_bytes n c hmem
  rcases hc with h | h | h <;> (rw [h] at this; revert this; decide)

/-! ## `find`, `substr` and `getline` on a well-formed line -/

theorem find_append (c : UInt8) (rest : List UInt8) :
    ∀ (pre : List UInt8), c ∉ pre → pre.length < npos → find (pre ++ c :: rest) c = pre.length := by
  intro pre
  induction pre with
  | nil => intro _ _; simp [find]
  | cons b pre ih =>
    intro hc hlen
    have hb : b ≠ c := fun h => hc (h ▸ List.mem_cons_self _ _)
    have hpre : c ∉ pre := fun h => hc (List.mem_cons_of_mem _ h)
    have hl : pre.length < npos := by simp only [List.length_cons] at hlen; omega
    have := ih hpre hl
    have hne : pre.length ≠ npos := by omega
    simp only [List.cons_append, find, hb, if_false, List.length_cons, List.append_eq]
    rw [this]
    simp [hne]

theorem find_not_mem (c : UInt8) : ∀ (l : List UInt8), c ∉ l → find l c = npos := by
  intro l
  induction l with
  | nil => intro _; rfl
  | cons b l ih =>
    intro hc
    have hb : b ≠ c := fun h => hc (h ▸ List.mem_cons_self _ _)
    have := ih (fun h => hc (List.mem_cons_of_mem _ h))
    simp [find, hb, this]

theorem getlinesFrom_line (rest : List UInt8) :
    ∀ (l acc : List UInt8), (10 : UInt8) ∉ l →
      getlinesFrom acc (l ++ 10 :: rest) = (acc.reverse ++ l) :: getlinesFrom [] rest := by
  intro l
  induction l with
  | nil => intro acc _; simp [getlinesFrom]
  | cons b l ih =>
    intro acc h
    have hb : b ≠ 10 := fun hh => h (hh ▸ List.mem_cons_self _ _)
    have := ih (b :: acc) (fun hh => h (List.mem_cons_of_mem _ hh))
    simp only [List.cons_append, getlinesFrom, hb, if_false, List.append_eq]
    rw [this]
    simp

/-- The line of an edge, without its newline. -/
theorem getlines_textFile (c : UInt8) (hc : c = 32 ∨ c = 44) :
    ∀ (edges : List (Nat × Nat)),
      getlines (textFile c edges) = edges.map (fun e => decimal e.1 ++ c :: decimal e.2) := by
  intro edges
  induction edges with
  | nil => rfl
  | cons e edges ih =>
    unfold getlines textFile at ih ⊢
    have hnl : (10 : UInt8) ∉ decimal e.1 ++ c :: decimal e.2 := by
      simp only [List.mem_append, List.mem_cons, not_or]
      refine ⟨not_mem_decimal _ _ (by simp), ?_, not_mem_decimal _ _ (by simp)⟩
      rcases hc with h | h <;> (rw [h]; decide)
    have hline : textLine c e = (decimal e.1 ++ c :: decimal e.2) ++ [10] := by
      simp [textLine]
    rw [List.flatMap_cons, hline, List.append_assoc, List.singleton_append,
      getlinesFrom_line _ _ _ hnl, ih]
    simp

theorem parseEdge_line (c : UInt8) (hc : c = 32 ∨ c = 44) (a b : Nat) (ha : a ≤ 2147483647)
    (hb : b ≤ 2147483647) :
    parseEdge c (decimal a ++ c :: decimal b) = Except.ok ((a : Int), (b : Int)) := by
  have hca : c ∉ decimal a := not_mem_decimal a c (by rcases hc with h | h <;> simp [h])
  have hla := decimal_length a ha
  have hlb := decimal_length b hb
  have hfind : find (decimal a ++ c :: decimal b) c = (decimal a).length :=
    find_append c _ _ hca (by unfold npos; omega)
  have hmod : ((decimal a).length + 1) % 18446744073709551616 = (decimal a).length + 1 := by
    omega
  have hs1 : substr (decimal a ++ c :: decimal b) 0 (decimal a).length =
      Except.ok (decimal a) := by
    simp [substr]
  have hs2 : substr (decimal a ++ c :: decimal b) ((decimal a).length + 1)
      (decimal a ++ c :: decimal b).length = Except.ok (decimal b) := by
    have hd : (decimal a ++ c :: decimal b).drop ((decimal a).length + 1) = decimal b := by
      have : decimal a ++ c :: decimal b = (decimal a ++ [c]) ++ decimal b := by simp
      rw [this]
      exact List.drop_left' (by simp)
    unfold substr
    rw [hd]
    simp only [List.length_append, List.length_cons]
    rw [if_neg (by omega)]
    rw [List.take_of_length_le (by omega)]
  simp only [parseEdge, hfind, hmod, hs1, hs2, stoi_decimal a ha, stoi_decimal b hb]

theorem parseLines_text (c : UInt8) (hc : c = 32 ∨ c = 44) :
    ∀ (edges : List (Nat × Nat)) (acc : List (Int × Int)),
      (∀ e ∈ edges, e.1 ≤ 2147483647 ∧ e.2 ≤ 2147483647) →
      parseLines c acc (edges.map (fun e => decimal e.1 ++ c :: decimal e.2)) =
        Except.ok (acc ++ edges.map (fun e => ((e.1 : Int), (e.2 : Int)))) := by
  intro edges
  induction edges with
  | nil => intro acc _; simp [parseLines]
  | cons e edges ih =>
    intro acc h
    obtain ⟨h1, h2⟩ := h e (List.mem_cons_self _ _)
    simp only [List.map_cons, parseLines, parseEdge_line c hc e.1 e.2 h1 h2]
    rw [ih _ (fun e' he' => h e' (List.mem_cons_of_mem _ he'))]
    simp

/-! ## C7 -/

/-- C7. Text edge list round trip: for every list of pairs `(src, dst)` with
`0 <= src, dst <= 2^31 - 1` and each separator `c` in `{' ', ','}`,
`read_input2` applied to the text file made of the lines `"<src>c<dst>\n"`
(decimal, one edge per line, file name not ending in `.elog`) returns exactly
that list of pairs, in the same order. -/
theorem text_round_trip (en : Endian) (fs : FileSystem) (filename : String)
    (edges : List (Nat × Nat)) (c : UInt8) (hname : endsWith filename ".elog" = false)
    (hc : c = 32 ∨ c = 44)
    (hrange : ∀ e ∈ edges, e.1 ≤ 2147483647 ∧ e.2 ≤ 2147483647)
    (hfile : fs filename = some (textFile c edges)) :
    read_input2 en fs filename = Except.ok (edges.map (fun e => ((e.1 : Int), (e.2 : Int)))) := by
  have hlines := getlines_textFile c hc edges
  have hparse := parseLines_text c hc edges [] hrange
  simp only [List.nil_append] at hparse
  unfold read_input2
  rw [hname, hfile]
  simp only [Bool.false_eq_true, if_false]
  rcases hc with h | h
  · subst h
    cases edges with
    | nil => rfl
    | cons e edges =>
      have hno : find (decimal e.1 ++ 32 :: decimal e.2) 44 = npos := by
        apply find_not_mem
        simp only [List.mem_append, List.mem_cons, not_or]
        exact ⟨not_mem_decimal _ _ (by simp), by decide, not_mem_decimal _ _ (by simp)⟩
      rw [hlines, List.map_cons]
      simp only [read_input2_loop, hno, if_true]
      rw [read_input_eq fs filename _ hfile, hlines]
      exact hparse
  · subst h
    rw [hlines, read_input2_loop_commas]
    · exact hparse
    · intro line hline
      simp only [List.mem_map] at hline
      obtain ⟨e, he, rfl⟩ := hline
      have hla := decimal_length e.1 (hrange e he).1
      rw [find_append 44 _ _ (not_mem_decimal _ _ (by simp)) (by unfold npos; omega)]
      unfold npos
      omega

/-- Instance of C7: two edges written with commas, the largest `int` included. -/
theorem text_round_trip_witness :
    read_input2 Endian.little (fun _ => some (textFile 44 [(0, 7), (12, 2147483647)]))
        "graph.csv" =
      Except.ok (([(0, 7), (12, 2147483647)] : List (Nat × Nat)).map
        (fun e => ((e.1 : Int), (e.2 : Int)))) :=
  text_round_trip Endian.little (fun _ => some (textFile 44 [(0, 7), (12, 2147483647)]))
    "graph.csv" [(0, 7), (12, 2147483647)] 44 (by decide) (by decide) (by decide) rfl

/-! ## The packed array: contents are preserved by the layout operations -/

theorem content_append (a b : List edge_t) : content (a ++ b) = content a ++ content b := by
  simp [content]

theorem content_cons_null (x : edge_t) (l : List edge_t) (h : is_null x.value = true) :
    content (x :: l) = content l := by
  simp [content, h]

theorem content_cons_real (x : edge_t) (l : List edge_t) (h : is_null x.value = false) :
    content (x :: l) = x :: content l := by
  simp [content, h]

theorem content_replicate_null (n : Nat) : content (List.replicate n null_edge) = [] := by
  simp [content, List.filter_eq_nil_iff, null_edge, is_null]

theorem content_eraseIdx :
    ∀ (l : List edge_t) (k : Nat), (∀ x, l[k]? = some x → is_null x.value = true) →
      content (l.eraseIdx k) = content l := by
  intro l
  induction l with
  | nil => intro k _; rfl
  | cons a l ih =>
    intro k h
    cases k with
    | zero =>
      have ha : is_null a.value = true := h a (by simp)
      simp [content_cons_null a l ha]
    | succ k =>
      have h' : ∀ x, l[k]? = some x → is_null x.value = true := by
        intro x hx
        exact h x (by simpa using hx)
      simp only [List.eraseIdx_cons_succ]
      cases hn : is_null a.value with
      | true => rw [content_cons_null _ _ hn, content_cons_null _ _ hn, ih k h']
      | false => rw [content_cons_real _ _ hn, content_cons_real _ _ hn, ih k h']

theorem content_spread_from (len c : Nat) :
    ∀ (xs : List edge_t) (k : Nat), (∀ x ∈ xs, is_null x.value = false) →
      content (spread_from len c k xs) = xs := by
  intro xs
  induction xs with
  | nil => intro k _; rfl
  | cons x xs ih =>
    intro k h
    have hx := h x (List.mem_cons_self _ _)
    simp only [spread_from]
    rw [content_cons_real _ _ hx, content_append, content_replicate_null,
      ih (k + 1) (fun y hy => h y (List.mem_cons_of_mem _ hy))]
    rfl

theorem content_spread (xs : List edge_t) (len : Nat) (h : ∀ x ∈ xs, is_null x.value = false) :
    content (spread xs len) = xs := by
  unfold spread
  cases xs with
  | nil => simp [content_replicate_null]
  | cons x xs =>
    simp only [List.isEmpty_cons, Bool.false_eq_true, if_false]
    exact content_spread_from _ _ _ _ h

theorem content_content (l : List edge_t) : ∀ x ∈ content l, is_null x.value = false := by
  intro x hx
  have := (List.mem_filter.mp hx).2
  simpa using this

theorem content_redistribute (l : List edge_t) (index len : Nat) :
    content (redistribute l index len) = content l := by
  unfold redistribute
  rw [content_append, content_append]
  have h1 := content_spread (content ((l.drop index).take len)) len (content_content _)
  unfold content at h1 ⊢
  rw [h1, ← List.filter_append, ← List.filter_append]
  congr 1
  have h2 : l.drop (index + len) = (l.drop index).drop len := by
    rw [List.drop_drop]
  rw [h2, List.append_assoc, List.take_append_drop, List.take_append_drop]

theorem content_slide_right (l : List edge_t) (i fe : Nat) (e : edge_t) (hi : i ≤ l.length)
    (hfe : i ≤ fe) (hnull : ∀ x, l[fe]? = some x → is_null x.value = true)
    (he : is_null e.value = false) :
    content ((slide_right l i fe).set i e) = content (l.take i) ++ e :: content (l.drop i) := by
  unfold slide_right
  have hlen : (l.take i).length = i := by simp [hi]
  have hset : (l.take i ++ null_edge :: (l.drop i).eraseIdx (fe - i)).set i e =
      l.take i ++ e :: (l.drop i).eraseIdx (fe - i) := by
    rw [List.set_append_right _ _ (by omega)]
    simp [hlen]
  rw [hset, content_append, content_cons_real _ _ he, content_eraseIdx]
  intro x hx
  apply hnull x
  rw [List.getElem?_drop] at hx
  have : i + (fe - i) = fe := by omega
  rwa [this] at hx

theorem content_slide_left (l : List edge_t) (i fe : Nat) (e : edge_t) (hi : i ≤ l.length)
    (hfe : fe < i) (hnull : ∀ x, l[fe]? = some x → is_null x.value = true)
    (he : is_null e.value = false) :
    content ((slide_left l i fe).set (i - 1) e) =
      content (l.take i) ++ e :: content (l.drop i) := by
  unfold slide_left
  have hlen : ((l.take i).eraseIdx fe).length = i - 1 := by
    rw [List.length_eraseIdx]
    simp [hi]
    omega
  have hset : ((l.take i).eraseIdx fe ++ null_edge :: l.drop i).set (i - 1) e =
      (l.take i).eraseIdx fe ++ e :: l.drop i := by
    rw [List.set_append_right _ _ (by omega)]
    simp [hlen]
  rw [hset, content_append, content_cons_real _ _ he, content_eraseIdx]
  intro x hx
  apply hnull x
  rw [List.getElem?_take] at hx
  simpa [hfe] using hx

theorem null_at_spec {l : List edge_t} {j : Nat} (h : null_at l j = true) :
    j < l.length ∧ ∀ x, l[j]? = some x → is_null x.value = true := by
  unfold null_at at h
  cases hj : l[j]? with
  | none => rw [hj] at h; cases h
  | some e =>
    rw [hj] at h
    refine ⟨lt_length_of_getElem? hj, ?_⟩
    intro x hx
    cases hx
    exact h

theorem scan_right_spec {l : List edge_t} {i k : Nat}
    (h : ((List.range l.length).filter (fun j => i ≤ j)).find? (null_at l) = some k) :
    i ≤ k ∧ ∀ x, l[k]? = some x → is_null x.value = true := by
  have h1 := List.find?_some h
  have h2 := List.mem_of_find?_eq_some h
  simp only [List.mem_filter, decide_eq_true_eq] at h2
  exact ⟨h2.2, (null_at_spec h1).2⟩

theorem scan_left_spec {l : List edge_t} {i k : Nat}
    (h : ((List.range l.length).filter (fun j => j < i)).reverse.find? (null_at l) = some k) :
    k < i ∧ ∀ x, l[k]? = some x → is_null x.value = true := by
  have h1 := List.find?_some h
  have h2 := List.mem_of_find?_eq_some h
  simp only [List.mem_reverse, List.mem_filter, decide_eq_true_eq] at h2
  exact ⟨h2.2, (null_at_spec h1).2⟩

theorem scan_null_spec (edges : edge_list_t) (i : Nat) (hi : i ≤ edges.items.length) :
    ((scan_null edges i).1 = true → i ≤ (scan_null edges i).2) ∧
    ((scan_null edges i).1 = false → (scan_null edges i).2 < i) ∧
    (∀ x, edges.items[(scan_null edges i).2]? = some x → is_null x.value = true) := by
  unfold scan_null
  split
  · rename_i k hk
    have hr := scan_right_spec hk
    split
    · refine ⟨fun _ => hr.1, fun h => ?_, hr.2⟩
      simp at h
    · split
      · rename_i j hj
        have hl := scan_left_spec hj
        refine ⟨fun h => ?_, fun _ => hl.1, hl.2⟩
        simp at h
      · refine ⟨fun _ => hr.1, fun h => ?_, hr.2⟩
        simp at h
  · split
    · rename_i j hj
      have hl := scan_left_spec hj
      refine ⟨fun h => ?_, fun _ => hl.1, hl.2⟩
      simp at h
    · refine ⟨fun _ => hi, fun h => ?_, ?_⟩
      · simp at h
      · intro x hx
        simp at hx

theorem content_slide_insert (edges : edge_list_t) (i : Nat) (e : edge_t)
    (hi : i ≤ edges.items.length) (he : is_null e.value = false) :
    content (slide_insert edges.items i e (scan_null edges i).1 (scan_null edges i).2) =
      content (edges.items.take i) ++ e :: content (edges.items.drop i) := by
  obtain ⟨h1, h2, h3⟩ := scan_null_spec edges i hi
  unfold slide_insert
  cases hd : (scan_null edges i).1 with
  | true =>
    simp only [if_true]
    exact content_slide_right _ _ _ _ hi (h1 hd) h3 he
  | false =>
    simp only [Bool.false_eq_true, if_false]
    exact content_slide_left _ _ _ _ hi (h2 hd) h3 he

theorem acquire_insert_locks_slide (dp : Density) (edges : edge_list_t) (i : Nat) (e : edge_t) :
    (acquire_insert_locks dp edges i e).slide_right = (scan_null edges i).1 ∧
    (acquire_insert_locks dp edges i e).first_empty = (scan_null edges i).2 := by
  unfold acquire_insert_locks
  split
  · exact ⟨rfl, rfl⟩
  · split <;> exact ⟨rfl, rfl⟩

theorem content_insert_info (dp : Density) (S : PCSR) (i : Nat) (e : edge_t) (src : Nat)
    (info : insertion_info_t) (h1 : info.slide_right = (scan_null S.edges i).1)
    (h2 : info.first_empty = (scan_null S.edges i).2)
    (hi : i ≤ S.edges.items.length) (he : is_null e.value = false) :
    content (insert dp S i e src info).edges.items =
      content (S.edges.items.take i) ++ e :: content (S.edges.items.drop i) := by
  have hc := content_slide_insert S.edges i e hi he
  unfold insert
  simp only [h1, h2]
  split
  · simp only [double_list]
    have := content_spread (content
      (slide_insert S.edges.items i e (scan_null S.edges i).1 (scan_null S.edges i).2))
      (2 * S.edges.N) (content_content _)
    unfold content at this hc ⊢
    rw [this]
    exact hc
  · split
    · simp only [content_redistribute]
      exact hc
    · exact hc

theorem content_insert (dp : Density) (S : PCSR) (i : Nat) (e : edge_t) (src : Nat)
    (hi : i ≤ S.edges.items.length) (he : is_null e.value = false) :
    content (insert dp S i e src (acquire_insert_locks dp S.edges i e)).edges.items =
      content (S.edges.items.take i) ++ e :: content (S.edges.items.drop i) :=
  content_insert_info dp S i e src _ (acquire_insert_locks_slide dp S.edges i e).1
    (acquire_insert_locks_slide dp S.edges i e).2 hi he

/-! ## Locating the insertion point -/

theorem findIdx_take_findIdx {α : Type} (p q : α → Bool) (hqp : ∀ x, q x = true → p x = true) :
    ∀ (l : List α), (l.take (l.findIdx q)).findIdx p = l.findIdx p := by
  intro l
  induction l with
  | nil => rfl
  | cons x xs ih =>
    cases hq : q x with
    | true =>
      have hp := hqp x hq
      simp [List.findIdx_cons, hq, hp]
    | false =>
      cases hp : p x with
      | true => simp [List.findIdx_cons, hq, hp]
      | false => simp [List.findIdx_cons, hq, hp, ih]

theorem getElem?_findIdx {α : Type} (p : α → Bool) :
    ∀ (l : List α), l[l.findIdx p]? = l.find? p := by
  intro l
  induction l with
  | nil => rfl
  | cons x xs ih =>
    cases hp : p x with
    | true => simp [List.findIdx_cons, hp]
    | false => simp [List.findIdx_cons, hp, ih]

theorem findIdx_le_length' {α : Type} (p : α → Bool) (l : List α) : l.findIdx p ≤ l.length :=
  List.findIdx_le_length p

theorem not_of_mem_take_findIdx {α : Type} (p : α → Bool) :
    ∀ (l : List α) (x : α), x ∈ l.take (l.findIdx p) → p x = false := by
  intro l
  induction l with
  | nil => intro x hx; simp at hx
  | cons a l ih =>
    intro x hx
    cases hp : p a with
    | true => simp [List.findIdx_cons, hp] at hx
    | false =>
      simp only [List.findIdx_cons, hp, cond_false, List.take_succ_cons, List.mem_cons] at hx
      rcases hx with h | h
      · rw [h]; exact hp
      · exact ih x h

theorem find?_content (d : Nat) :
    ∀ (l : List edge_t), (content l).find? (reaches d) = l.find? (reaches d) := by
  intro l
  induction l with
  | nil => rfl
  | cons x xs ih =>
    cases hn : is_null x.value with
    | true =>
      rw [content_cons_null _ _ hn, ih]
      simp [List.find?_cons, reaches, hn]
    | false =>
      rw [content_cons_real _ _ hn]
      simp only [List.find?_cons, ih]

theorem sentinel_real {v : Nat} {x : edge_t} (h : is_sentinel_of v x = true) :
    is_null x.value = false := by
  simp only [is_sentinel_of, is_sentinel, Bool.and_eq_true, Bool.not_eq_true'] at h
  exact h.1.1

theorem content_drop_findIdx (v : Nat) :
    ∀ (l : List edge_t),
      content (l.drop (l.findIdx (is_sentinel_of v) + 1)) =
        (content l).drop ((content l).findIdx (is_sentinel_of v) + 1) := by
  intro l
  induction l with
  | nil => rfl
  | cons x xs ih =>
    cases hp : is_sentinel_of v x with
    | true =>
      have hn := sentinel_real hp
      rw [content_cons_real _ _ hn]
      simp [List.findIdx_cons, hp]
    | false =>
      cases hn : is_null x.value with
      | true =>
        rw [content_cons_null _ _ hn]
        simp only [List.findIdx_cons, hp, cond_false, List.drop_succ_cons]
        exact ih
      | false =>
        rw [content_cons_real _ _ hn]
        simp only [List.findIdx_cons, hp, cond_false, List.drop_succ_cons]
        exact ih

theorem located_content (l : List edge_t) (v d : Nat) :
    located (content l) v d = located l v d := by
  unfold located
  rw [← content_drop_findIdx, find?_content]

theorem located_append (v d : Nat) (s : edge_t) (R : List edge_t)
    (hs : is_sentinel_of v s = true) :
    ∀ (A : List edge_t), (∀ x ∈ A, is_sentinel_of v x = false) →
      located (A ++ s :: R) v d = R.find? (reaches d) := by
  intro A
  induction A with
  | nil =>
    intro _
    simp [located, List.findIdx_cons, hs]
  | cons a A ih =>
    intro h
    have ha := h a (List.mem_cons_self _ _)
    have := ih (fun x hx => h x (List.mem_cons_of_mem _ hx))
    unfold located at this ⊢
    simp only [List.cons_append, List.findIdx_cons, ha, cond_false, List.drop_succ_cons]
    exact this

theorem find?_append_first (d : Nat) (e : edge_t) (he : reaches d e = true) (R : List edge_t) :
    ∀ (A : List edge_t), (∀ x ∈ A, reaches d x = false) →
      (A ++ e :: R).find? (reaches d) = some e := by
  intro A
  induction A with
  | nil => intro _; simp [List.find?_cons, he]
  | cons a A ih =>
    intro h
    have ha := h a (List.mem_cons_self _ _)
    simp only [List.cons_append, List.find?_cons, ha]
    exact ih (fun x hx => h x (List.mem_cons_of_mem _ hx))

theorem mem_content {l : List edge_t} {x : edge_t} (h : x ∈ content l) : x ∈ l :=
  (List.mem_filter.mp h).1

/-- After the insertion of a non-null `e` with `dest = d` at the located index,
the slot located for `(v, d)` is `e`. -/
theorem located_after_insert (L L1 : List edge_t) (v d : Nat) (e : edge_t)
    (hb : L.findIdx (is_sentinel_of v) < L.length)
    (he : reaches d e = true)
    (hL1 : content L1 =
      content (L.take (L.findIdx (is_sentinel_of v) + 1 +
          (L.drop (L.findIdx (is_sentinel_of v) + 1)).findIdx (reaches d))) ++
        e :: content (L.drop (L.findIdx (is_sentinel_of v) + 1 +
          (L.drop (L.findIdx (is_sentinel_of v) + 1)).findIdx (reaches d)))) :
    located L1 v d = some e := by
  rw [← located_content, hL1]
  generalize hbd : L.findIdx (is_sentinel_of v) = b at hb hL1 ⊢
  generalize hjd : (L.drop (b + 1)).findIdx (reaches d) = j
  have hsent : is_sentinel_of v L[b] = true := by
    have := @List.findIdx_getElem _ (is_sentinel_of v) L (hbd ▸ hb)
    simpa [hbd] using this
  have hpre : ∀ x ∈ L.take b, is_sentinel_of v x = false := by
    intro x hx
    rw [← hbd] at hx
    exact not_of_mem_take_findIdx _ _ _ hx
  have htake : L.take (b + 1 + j) = L.take b ++ L[b] :: (L.drop (b + 1)).take j := by
    have h1 : L.take (b + 1) = L.take b ++ [L[b]] := by
      rw [List.take_succ, List.getElem?_eq_getElem hb]
      rfl
    rw [List.take_add, h1, List.append_assoc]
    rfl
  rw [htake, content_append, content_cons_real _ _ (sentinel_real hsent), List.append_assoc,
    List.cons_append]
  rw [located_append v d L[b] _ hsent _ (fun x hx => hpre x (mem_content hx))]
  apply find?_append_first d e he
  intro x hx
  rw [← hjd] at hx
  exact not_of_mem_take_findIdx _ _ _ (mem_content hx)

/-! ## `add_edge` -/

theorem fix_sentinels_getElem? (L : List edge_t) (nodes : List node_t) (v : Nat)
    (hv : v < nodes.length) :
    ∃ D, (fix_sentinels L nodes)[v]? = some D ∧ D.beginning = sentinel_index L v ∧
      D.end_ = run_end L v := by
  refine ⟨{ nodes[v] with beginning := sentinel_index L v, end_ := run_end L v }, ?_, rfl, rfl⟩
  simp [fix_sentinels, List.getElem?_mapIdx, List.getElem?_eq_getElem hv]

theorem sentinel_reaches (d : Nat) (hd : d ≤ MAX) (x : edge_t) (h : is_sentinel x = true) :
    reaches d x = true := by
  simp only [is_sentinel, Bool.and_eq_true, Bool.not_eq_true', beq_iff_eq] at h
  simp only [reaches, Bool.and_eq_true, Bool.not_eq_true', decide_eq_true_eq]
  exact ⟨h.1, by rw [h.2]; exact hd⟩

theorem find_insertion_index_eq (L : List edge_t) (D : node_t) (v d : Nat) (hd : d ≤ MAX)
    (h1 : D.beginning = sentinel_index L v) (h2 : D.end_ = run_end L v)
    (hmax : D.beginning ≠ MAX) :
    L.findIdx (is_sentinel_of v) < L.length ∧
    find_insertion_index L D d =
      L.findIdx (is_sentinel_of v) + 1 +
        (L.drop (L.findIdx (is_sentinel_of v) + 1)).findIdx (reaches d) ∧
    find_insertion_index L D d ≤ L.length ∧
    L[find_insertion_index L D d]? = located L v d := by
  have hb : L.findIdx (is_sentinel_of v) < L.length := by
    by_contra hcon
    apply hmax
    rw [h1, sentinel_index, if_neg hcon]
  have hbeg : D.beginning = L.findIdx (is_sentinel_of v) := by
    rw [h1, sentinel_index, if_pos hb]
  have hend : D.end_ - (D.beginning + 1) =
      (L.drop (L.findIdx (is_sentinel_of v) + 1)).findIdx is_sentinel := by
    rw [h2, hbeg, run_end, sentinel_index, if_pos hb]
    omega
  have hidx : find_insertion_index L D d =
      L.findIdx (is_sentinel_of v) + 1 +
        (L.drop (L.findIdx (is_sentinel_of v) + 1)).findIdx (reaches d) := by
    unfold find_insertion_index
    rw [hend, hbeg]
    have hlam : (fun e : edge_t => !is_null e.value && decide (d ≤ e.dest)) = reaches d := rfl
    rw [hlam, findIdx_take_findIdx (reaches d) is_sentinel (sentinel_reaches d hd)]
  refine ⟨hb, hidx, ?_, ?_⟩
  · rw [hidx]
    have := findIdx_le_length' (reaches d) (L.drop (L.findIdx (is_sentinel_of v) + 1))
    rw [List.length_drop] at this
    omega
  · rw [hidx, ← List.getElem?_drop, getElem?_findIdx]
    rfl

theorem insert_nodes (dp : Density) (S : PCSR) (i : Nat) (e : edge_t) (src : Nat)
    (info : insertion_info_t) :
    (insert dp S i e src info).nodes =
      fix_sentinels (insert dp S i e src info).edges.items
        (S.nodes.modify (fun n => { n with num_neighbors := n.num_neighbors + 1 }) src) := by
  unfold insert
  simp only
  split
  · rfl
  · split <;> rfl

/-- A second `add_edge` for an edge that the state `S1` holds at the located
slot is a no-op. -/
theorem add_edge_located (dp : Density) (S1 : PCSR) (s d v v' : Nat) (nodes0 : List node_t)
    (hs : s < nodes0.length) (hd : d < MAX) (hv : v ≠ 0)
    (hnodes : S1.nodes = fix_sentinels S1.edges.items nodes0)
    (hloc : S1.edges.items.findIdx (is_sentinel_of s) < S1.edges.items.length →
      located S1.edges.items s d = some ⟨s, d, v⟩) :
    add_edge dp S1 s d v' = some S1 := by
  obtain ⟨D1, hD1, hb1, he1⟩ := fix_sentinels_getElem? S1.edges.items nodes0 s hs
  rw [← hnodes] at hD1
  unfold add_edge
  rw [hD1]
  simp only
  by_cases hmax : D1.beginning = MAX
  · rw [if_pos hmax]
  · rw [if_neg hmax]
    obtain ⟨hb, _, _, hget⟩ :=
      find_insertion_index_eq S1.edges.items D1 s d (Nat.le_of_lt hd) hb1 he1 hmax
    rw [hget, hloc hb]
    have hdup : (is_edge ⟨s, d, v⟩ && (⟨s, d, v⟩ : edge_t).src == s &&
        (⟨s, d, v⟩ : edge_t).dest == d) = true := by
      have hd' : d ≠ MAX := Nat.ne_of_lt hd
      simp [is_edge, is_null, hv, hd']
    simp only [hdup, if_true]

/-! ## C3 -/

end PPCSR
